import Mathlib

/-!
# Monte Carlo estimator of pi: the simulation state of `script.js`

A shallow embedding of the sampler in `src/script.js`: the global `state`
object, `drawPoint`, the state-changing part of `draw`, the numbers computed
by `updateStats` and `showCompletionMessage`, `resetSimulation`,
`togglePause` and the two slider handlers of `initializeUI`.

Numbers are IEEE 754 doubles.  A finite double is held as the rational it
denotes, and every arithmetic operation computes the exact result and rounds
it to the nearest double, ties to even, with gradual underflow and overflow
to infinity (`roundDouble`).  The square `v ** 2` and the root `sqrt(v)` are
taken correctly rounded as well.  The sign of zero is not kept: no operation
of the script can observe it.  The integer counters are natural numbers;
they are exact doubles as long as they stay below `2^53`.  Canvas drawing and
DOM writes carry no simulation state and are left out; what `updateStats` and
`showCompletionMessage` display is returned as a value.
-/

namespace PiSim

/-! ## Numbers -/

/-- A number as the script sees it: a finite double, given by its exact
value, or one of the non-finite values. -/
inductive JSNum where
  | fin (q : ℚ)
  | posInf
  | negInf
  | nan
  deriving DecidableEq

/-- The integer nearest to `r`, the even one of the two when `r` lies half
way. -/
def roundHalfEven (r : ℚ) : ℤ :=
  if r - ⌊r⌋ < 1 / 2 then ⌊r⌋
  else if 1 / 2 < r - ⌊r⌋ then ⌊r⌋ + 1
  else if ⌊r⌋ % 2 = 0 then ⌊r⌋ else ⌊r⌋ + 1

/-- The exponent of the unit in the last place of a double near `q`: 52
below the binary exponent of `q`, and never below `-1074`, the exponent of
the smallest subnormal. -/
def ulpExp (q : ℚ) : ℤ := max (Int.log 2 |q| - 52) (-1074)

/-- The multiple of the unit in the last place nearest to `q`, ties to
even. -/
def roundFinite (q : ℚ) : ℚ := (roundHalfEven (q / 2 ^ ulpExp q) : ℚ) * 2 ^ ulpExp q

/-- The double nearest to the exact result `q` of an operation: round to
nearest, ties to even, and a result of magnitude `2^1024` or more is
infinite. -/
def roundDouble (q : ℚ) : JSNum :=
  if 2 ^ 1024 ≤ roundFinite q then .posInf
  else if roundFinite q ≤ -2 ^ 1024 then .negInf
  else .fin (roundFinite q)

/-- The double nearest to the square root of `q >= 0`, ties to even: with
`e` the exponent of the unit in the last place of the root, `m0` is the root
of `q / 4^e` rounded down, and the comparison of `q / 4^e` with
`(m0 + 1/2)^2` tells whether the root lies below or above the half way
point. -/
def sqrtRound (q : ℚ) : ℚ :=
  let e : ℤ := Int.log 2 q / 2 - 52
  let x : ℚ := q / 2 ^ (2 * e)
  let m0 : ℕ := Nat.sqrt ⌊x⌋₊
  let h : ℚ := (m0 : ℚ) + 1 / 2
  let m : ℕ :=
    if x < h ^ 2 then m0
    else if h ^ 2 < x then m0 + 1
    else if m0 % 2 = 0 then m0 else m0 + 1
  (m : ℚ) * 2 ^ e

namespace JSNum

/-- Sum `a + b`. -/
def add : JSNum → JSNum → JSNum
  | fin a, fin b => roundDouble (a + b)
  | fin _, posInf => posInf
  | fin _, negInf => negInf
  | posInf, fin _ => posInf
  | negInf, fin _ => negInf
  | posInf, posInf => posInf
  | negInf, negInf => negInf
  | posInf, negInf => nan
  | negInf, posInf => nan
  | nan, _ => nan
  | _, nan => nan

/-- Difference `a - b`. -/
def sub : JSNum → JSNum → JSNum
  | fin a, fin b => roundDouble (a - b)
  | fin _, posInf => negInf
  | fin _, negInf => posInf
  | posInf, fin _ => posInf
  | negInf, fin _ => negInf
  | posInf, negInf => posInf
  | negInf, posInf => negInf
  | posInf, posInf => nan
  | negInf, negInf => nan
  | nan, _ => nan
  | _, nan => nan

/-- Product `a * b`. -/
def mul : JSNum → JSNum → JSNum
  | fin a, fin b => roundDouble (a * b)
  | fin a, posInf => if a = 0 then nan else if 0 < a then posInf else negInf
  | fin a, negInf => if a = 0 then nan else if 0 < a then negInf else posInf
  | posInf, fin b => if b = 0 then nan else if 0 < b then posInf else negInf
  | negInf, fin b => if b = 0 then nan else if 0 < b then negInf else posInf
  | posInf, posInf => posInf
  | posInf, negInf => negInf
  | negInf, posInf => negInf
  | negInf, negInf => posInf
  | nan, _ => nan
  | _, nan => nan

/-- Quotient `a / b`; a zero divisor is the positive zero, the only zero
divisor the script has (a counter that is 0). -/
def div : JSNum → JSNum → JSNum
  | fin a, fin b =>
    if b = 0 then (if a = 0 then nan else if 0 < a then posInf else negInf)
    else roundDouble (a / b)
  | fin _, posInf => fin 0
  | fin _, negInf => fin 0
  | posInf, fin b => if 0 ≤ b then posInf else negInf
  | negInf, fin b => if 0 ≤ b then negInf else posInf
  | posInf, posInf => nan
  | posInf, negInf => nan
  | negInf, posInf => nan
  | negInf, negInf => nan
  | nan, _ => nan
  | _, nan => nan

/-- The function `sqrt`. -/
def sqrt : JSNum → JSNum
  | fin q => if q < 0 then nan else fin (sqrtRound q)
  | posInf => posInf
  | negInf => nan
  | nan => nan

/-- The function `Math.abs`. -/
def abs : JSNum → JSNum
  | fin a => fin |a|
  | posInf => posInf
  | negInf => posInf
  | nan => nan

/-- The comparison `a <= b`, false when either side is `NaN`. -/
def le : JSNum → JSNum → Bool
  | fin a, fin b => decide (a ≤ b)
  | fin _, posInf => true
  | fin _, negInf => false
  | posInf, fin _ => false
  | posInf, posInf => true
  | posInf, negInf => false
  | negInf, fin _ => true
  | negInf, posInf => true
  | negInf, negInf => true
  | nan, _ => false
  | _, nan => false

end JSNum

/-- The constant `Math.PI`: the double nearest to pi, `884279719003555 / 2^48`. -/
def MathPI : ℚ := 884279719003555 / 281474976710656

/-! ## State -/

/-- One record of `state.allPoints`. -/
structure Point where
  x : ℚ
  y : ℚ
  inside : Bool
  deriving DecidableEq

/-- The global `state` object. -/
structure State where
  totalPoints : Nat
  currentPoints : Nat
  pointsInside : Nat
  allPoints : List Point
  isPaused : Bool
  simulationSpeed : Nat
  radius : ℚ
  isComplete : Bool
  deriving DecidableEq

/-- The initial value of `state`. -/
def initialState : State :=
  { totalPoints := 10000
    currentPoints := 0
    pointsInside := 0
    allPoints := []
    isPaused := false
    simulationSpeed := 3
    radius := 500
    isComplete := false }

/-- The table `speedMultipliers`; a level outside the table is `undefined`. -/
def speedMultipliers : Nat → Option Nat
  | 1 => some 1
  | 2 => some 5
  | 3 => some 10
  | 4 => some 50
  | 5 => some 200
  | _ => none

/-- Canvas width, from `createCanvas(500, 500)`. -/
def width : ℚ := 500

/-- Canvas height, from `createCanvas(500, 500)`. -/
def height : ℚ := 500

/-! ## Operations -/

/-- The value `distance` of `drawPoint` for the draw `(randomX, randomY)`:
`sqrt((randomX - width / 2) ** 2 + (randomY - height / 2) ** 2)`, every
operation rounded. -/
def distance (randomX randomY : ℚ) : JSNum :=
  let dx := JSNum.sub (.fin randomX) (JSNum.div (.fin width) (.fin 2))
  let dy := JSNum.sub (.fin randomY) (JSNum.div (.fin height) (.fin 2))
  JSNum.sqrt (JSNum.add (JSNum.mul dx dx) (JSNum.mul dy dy))

/-- The flag `isInside` of `drawPoint`: `distance <= state.radius / 2`. -/
def isInside (s : State) (randomX randomY : ℚ) : Bool :=
  JSNum.le (distance randomX randomY) (JSNum.div (.fin s.radius) (.fin 2))

/-- The function `drawPoint`, given the two values returned by `random`. -/
def drawPoint (r : ℚ × ℚ) (s : State) : State :=
  let inside := isInside s r.1 r.2
  { s with
    allPoints := s.allPoints ++ [{ x := r.1, y := r.2, inside := inside }]
    pointsInside := if inside then s.pointsInside + 1 else s.pointsInside
    currentPoints := s.currentPoints + 1 }

/-- The `for` loop of `draw`: `n` is the number of iterations that the bound
`i < batchSize` still allows, `i` the loop counter, `rnd i` the pair of
random values drawn in iteration `i`. -/
def drawLoop (rnd : Nat → ℚ × ℚ) : Nat → Nat → State → State
  | 0, _, s => s
  | n + 1, i, s =>
    if s.currentPoints < s.totalPoints then drawLoop rnd n (i + 1) (drawPoint (rnd i) s)
    else s

/-- What `updateStats` computes. -/
structure Stats where
  piApproximation : JSNum
  error : JSNum
  percentInside : JSNum
  progress : JSNum
  deriving DecidableEq

/-- The function `updateStats`: the four numbers it derives from the state
(`percentInside` before `toFixed`). -/
def updateStats (s : State) : Stats :=
  let piApproximation :=
    if s.currentPoints > 0 then
      JSNum.mul (.fin 4) (JSNum.div (.fin s.pointsInside) (.fin s.currentPoints))
    else .fin 0
  { piApproximation := piApproximation
    error := JSNum.abs (JSNum.sub (.fin MathPI) piApproximation)
    percentInside :=
      if s.currentPoints > 0 then
        JSNum.mul (JSNum.div (.fin s.pointsInside) (.fin s.currentPoints)) (.fin 100)
      else .fin 0
    progress := JSNum.mul (JSNum.div (.fin s.currentPoints) (.fin s.totalPoints)) (.fin 100) }

/-- What `showCompletionMessage` computes. -/
structure Completion where
  piApproximation : JSNum
  error : JSNum
  deriving DecidableEq

/-- The function `showCompletionMessage`: the two numbers it prints. -/
def showCompletionMessage (s : State) : Completion :=
  let piApproximation := JSNum.mul (.fin 4) (JSNum.div (.fin s.pointsInside) (.fin s.totalPoints))
  { piApproximation := piApproximation
    error := JSNum.abs (JSNum.sub (.fin MathPI) piApproximation) }

/-- What one call of `draw` shows besides the canvas: the statistics, when
`updateStats` ran, and the completion message, when it was shown. -/
structure TickOutput where
  stats : Option Stats
  completion : Option Completion
  deriving DecidableEq

/-- The function `draw`: one tick, with `rnd` the random values of its loop.
When the speed level is outside the table, `batchSize` is `undefined`, the
test `i < batchSize` is false and the loop body never runs. -/
def draw (rnd : Nat → ℚ × ℚ) (s : State) : State × TickOutput :=
  if !s.isPaused && !s.isComplete then
    let s1 :=
      match speedMultipliers s.simulationSpeed with
      | some batchSize => drawLoop rnd batchSize 0 s
      | none => s
    let stats := updateStats s1
    if s1.currentPoints ≥ s1.totalPoints then
      let s2 := { s1 with isComplete := true }
      (s2, { stats := some stats, completion := some (showCompletionMessage s2) })
    else
      (s1, { stats := some stats, completion := none })
  else
    (s, { stats := none, completion := none })

/-- The function `resetSimulation`. -/
def resetSimulation (s : State) : State :=
  { s with
    currentPoints := 0
    pointsInside := 0
    allPoints := []
    isPaused := false
    isComplete := false }

/-- The function `togglePause`. -/
def togglePause (s : State) : State :=
  { s with isPaused := !s.isPaused }

/-- The `input` handler of the points slider, `n` being the parsed value. -/
def setTotalPoints (n : Nat) (s : State) : State :=
  { s with totalPoints := n }

/-- The `input` handler of the speed slider, `level` being the parsed value. -/
def setSimulationSpeed (level : Nat) (s : State) : State :=
  { s with simulationSpeed := level }

/-- Consecutive ticks, one random source per tick. -/
def drawTicks : List (Nat → ℚ × ℚ) → State → State
  | [], s => s
  | rnd :: rest, s => drawTicks rest (draw rnd s).1

/-! ## Reachable states -/

/-- States reachable from `initialState` by ticks, slider changes, pause
toggles and resets.  The points slider may move to `n` in state `s` only when
`guard s n` holds; the speed slider moves to a level of the table. -/
inductive ReachableWhen (guard : State → Nat → Prop) : State → Prop where
  | init : ReachableWhen guard initialState
  | tick (rnd : Nat → ℚ × ℚ) {s : State} :
      ReachableWhen guard s → ReachableWhen guard (draw rnd s).1
  | points (n : Nat) {s : State} :
      ReachableWhen guard s → guard s n → ReachableWhen guard (setTotalPoints n s)
  | speed (level : Nat) {s : State} :
      ReachableWhen guard s → 1 ≤ level → level ≤ 5 →
      ReachableWhen guard (setSimulationSpeed level s)
  | pause {s : State} : ReachableWhen guard s → ReachableWhen guard (togglePause s)
  | reset {s : State} : ReachableWhen guard s → ReachableWhen guard (resetSimulation s)

/-- Reachability with the points slider free to take any non-negative
integer at any time. -/
def Reachable : State → Prop := ReachableWhen (fun _ _ => True)

/-- A random source that always returns the canvas centre. -/
def centre : Nat → ℚ × ℚ := fun _ => (250, 250)

/-- The double `250 + 2^-20 + 2^-44`, just above the middle of the canvas. -/
def nearBoundary : ℚ := 4398046527881217 / 17592186044416

/-- A number is a double with exponent at most `E`: an integer below `2^53`
in size times a power of two between `2^-1074` and `2^E`. -/
def Representable (E : ℤ) (q : ℚ) : Prop :=
  ∃ m e : ℤ, |m| < 2 ^ 53 ∧ -1074 ≤ e ∧ e ≤ E ∧ q = (m : ℚ) * 2 ^ e

/-- A number is a finite double. -/
def IsDouble (q : ℚ) : Prop := Representable 971 q

/-! ## Auxiliary definitions -/

/-- The counters and the history agree. -/
def Counted (s : State) : Prop :=
  s.pointsInside ≤ s.currentPoints ∧ s.allPoints.length = s.currentPoints

/-- The state after the loop of a tick that is neither paused nor complete. -/
def afterLoop (rnd : Nat → ℚ × ℚ) (s : State) : State :=
  match speedMultipliers s.simulationSpeed with
  | some batchSize => drawLoop rnd batchSize 0 s
  | none => s

/-- Below the target no run is complete, at the target every run is: the
invariant of runs whose target is only ever raised before completion. -/
def CompleteAtTarget (s : State) : Prop :=
  s.currentPoints ≤ s.totalPoints ∧ 0 < s.totalPoints ∧
  (s.isComplete = true ↔ s.currentPoints = s.totalPoints)

/-- A run at target `T` and batch size `b` that is not paused and stands
where `m` requested samples lead. -/
def Progressed (T b m : Nat) (s : State) : Prop :=
  s.isPaused = false ∧ speedMultipliers s.simulationSpeed = some b ∧ s.totalPoints = T ∧
  s.currentPoints = min m T ∧ (s.isComplete = true ↔ T ≤ m)

/-- Every stored record carries the flag that the test of `drawPoint` gives
its coordinates, at the one radius the state ever has. -/
def Classified (s : State) : Prop :=
  s.radius = 500 ∧ ∀ p ∈ s.allPoints, p.inside = isInside s p.x p.y

/-- A random source that always returns `(490, 350)`, at distance 260 from the
canvas centre. -/
def outer : Nat → ℚ × ℚ := fun _ => (490, 350)

/-- A run of three ticks at level 1: two points at the centre, one outside
the circle. -/
def twoOfThree : State :=
  drawTicks [centre, centre, outer] (setSimulationSpeed 1 initialState)

/-- Seven ticks at the initial settings: 70 points of a target of 10000. -/
def seventy : State :=
  drawTicks [centre, centre, centre, centre, centre, centre, centre] initialState

/-- A run in which the target is lowered below the number of points already
generated: at level 1 two ticks generate two points at the canvas centre,
then the points slider moves to 1. -/
def loweredTarget : State :=
  setTotalPoints 1 (drawTicks [centre, centre] (setSimulationSpeed 1 initialState))

/-! # Theorems -/

/-! ## Rounding -/

theorem roundHalfEven_of_abs_lt (r : ℚ) (m : ℤ) (h : |r - m| < 1 / 2) :
    roundHalfEven r = m := by
  rw [abs_lt] at h
  obtain ⟨h1, h2⟩ := h
  unfold roundHalfEven
  by_cases hm : (m : ℚ) ≤ r
  · have hf : ⌊r⌋ = m := by
      rw [Int.floor_eq_iff]
      constructor
      · exact hm
      · linarith
    rw [hf, if_pos (by linarith)]
  · have hf : ⌊r⌋ = m - 1 := by
      rw [Int.floor_eq_iff]
      push_cast
      constructor <;> linarith
    rw [hf]
    push_cast
    rw [if_neg (by linarith), if_pos (by linarith)]
    ring

theorem roundHalfEven_intCast (m : ℤ) : roundHalfEven (m : ℚ) = m :=
  roundHalfEven_of_abs_lt _ m (by simp)

theorem abs_roundHalfEven_sub_le (r : ℚ) : |(roundHalfEven r : ℚ) - r| ≤ 1 / 2 := by
  have h1 := Int.floor_le r
  have h2 := Int.lt_floor_add_one r
  unfold roundHalfEven
  rw [abs_le]
  split_ifs <;> push_cast <;> constructor <;> linarith

theorem log_eq_of_bounds (q : ℚ) (k : ℤ) (h1 : (2 : ℚ) ^ k ≤ q) (h2 : q < (2 : ℚ) ^ (k + 1)) :
    Int.log 2 q = k := by
  have hpos : 0 < q := lt_of_lt_of_le (by positivity) h1
  have ha : k ≤ Int.log 2 q :=
    (Int.zpow_le_iff_le_log (by norm_num) hpos).mp (by exact_mod_cast h1)
  have hb : Int.log 2 q < k + 1 :=
    (Int.lt_zpow_iff_log_lt (by norm_num) hpos).mp (by exact_mod_cast h2)
  omega

theorem zpow_log_le (q : ℚ) (hq : 0 < q) : (2 : ℚ) ^ Int.log 2 q ≤ q := by
  have := Int.zpow_log_le_self (b := 2) (by norm_num) hq
  exact_mod_cast this

theorem lt_zpow_log_succ (q : ℚ) : q < (2 : ℚ) ^ (Int.log 2 q + 1) := by
  have := Int.lt_zpow_succ_log_self (b := 2) (by norm_num) q
  exact_mod_cast this

theorem roundFinite_zero : roundFinite 0 = 0 := by
  have h : roundHalfEven 0 = 0 := by
    have := roundHalfEven_intCast 0
    simpa using this
  unfold roundFinite
  rw [zero_div, h]
  simp

theorem roundDouble_zero : roundDouble 0 = .fin 0 := by
  unfold roundDouble
  rw [roundFinite_zero, if_neg (by norm_num), if_neg (by norm_num)]

/-- The distance from a number to its rounding is at most half a unit in the
last place. -/
theorem abs_roundFinite_sub_le (q : ℚ) :
    |roundFinite q - q| ≤ 2 ^ ulpExp q / 2 := by
  have hp : (0 : ℚ) < 2 ^ ulpExp q := by positivity
  have h := abs_roundHalfEven_sub_le (q / 2 ^ ulpExp q)
  have e : roundFinite q - q
      = ((roundHalfEven (q / 2 ^ ulpExp q) : ℚ) - q / 2 ^ ulpExp q) * 2 ^ ulpExp q := by
    unfold roundFinite
    field_simp
  rw [e, abs_mul, abs_of_pos hp]
  calc |((roundHalfEven (q / 2 ^ ulpExp q) : ℚ) - q / 2 ^ ulpExp q)| * 2 ^ ulpExp q
      ≤ 1 / 2 * 2 ^ ulpExp q := mul_le_mul_of_nonneg_right h hp.le
    _ = 2 ^ ulpExp q / 2 := by ring

theorem ulpExp_of_normal (q : ℚ) (h : (2 : ℚ) ^ (-1022 : ℤ) ≤ |q|) :
    ulpExp q = Int.log 2 |q| - 52 := by
  have hpos : 0 < |q| := lt_of_lt_of_le (by positivity) h
  have : (-1022 : ℤ) ≤ Int.log 2 |q| :=
    (Int.zpow_le_iff_le_log (by norm_num) hpos).mp (by exact_mod_cast h)
  unfold ulpExp
  omega

/-- In the normal range rounding has relative error at most `2^-53`. -/
theorem abs_roundFinite_sub_le_rel (q : ℚ) (h : (2 : ℚ) ^ (-1022 : ℤ) ≤ |q|) :
    |roundFinite q - q| ≤ |q| / 2 ^ 53 := by
  have hpos : 0 < |q| := lt_of_lt_of_le (by positivity) h
  have h1 := abs_roundFinite_sub_le q
  rw [ulpExp_of_normal q h] at h1
  have h2 := zpow_log_le |q| hpos
  have e : (2 : ℚ) ^ (Int.log 2 |q| - 52) / 2 = 2 ^ Int.log 2 |q| / 2 ^ 53 := by
    rw [zpow_sub₀ (by norm_num)]
    norm_num
    ring
  rw [e] at h1
  calc |roundFinite q - q| ≤ 2 ^ Int.log 2 |q| / 2 ^ 53 := h1
    _ ≤ |q| / 2 ^ 53 := by
      apply div_le_div_of_nonneg_right h2; positivity


theorem abs_lt_of_representable {E : ℤ} {q : ℚ} (h : Representable E q) :
    |q| < (2 : ℚ) ^ (E + 53) := by
  obtain ⟨m, e, hm, _, he, rfl⟩ := h
  have hm' : |(m : ℚ)| < 2 ^ 53 := by exact_mod_cast hm
  have hp : (0 : ℚ) < 2 ^ e := by positivity
  rw [abs_mul, abs_of_pos hp]
  calc |(m : ℚ)| * 2 ^ e < 2 ^ 53 * 2 ^ e := mul_lt_mul_of_pos_right hm' hp
    _ = 2 ^ (e + 53) := by
      rw [zpow_add₀ (by norm_num)]; norm_num; ring
    _ ≤ 2 ^ (E + 53) := zpow_le_zpow_right₀ (by norm_num) (by omega)

/-- Rounding leaves a representable number as it is. -/
theorem roundFinite_of_representable {E : ℤ} {q : ℚ} (h : Representable E q) :
    roundFinite q = q := by
  obtain ⟨m, e, hm, he1, _, rfl⟩ := h
  by_cases hm0 : m = 0
  · subst hm0; simp [roundFinite_zero]
  have hmq : |(m : ℚ)| < 2 ^ 53 := by exact_mod_cast hm
  have hp : (0 : ℚ) < 2 ^ e := by positivity
  have hqpos : 0 < |(m : ℚ) * 2 ^ e| := by
    rw [abs_pos]; exact mul_ne_zero (by exact_mod_cast hm0) hp.ne'
  have hlt : |(m : ℚ) * 2 ^ e| < (2 : ℚ) ^ (e + 53) := by
    rw [abs_mul, abs_of_pos hp]
    calc |(m : ℚ)| * 2 ^ e < 2 ^ 53 * 2 ^ e := mul_lt_mul_of_pos_right hmq hp
      _ = 2 ^ (e + 53) := by
        rw [zpow_add₀ (by norm_num)]; norm_num; ring
  have hlog : Int.log 2 |(m : ℚ) * 2 ^ e| < e + 53 :=
    (Int.lt_zpow_iff_log_lt (by norm_num) hqpos).mp (by exact_mod_cast hlt)
  have hu : ulpExp ((m : ℚ) * 2 ^ e) ≤ e := by
    unfold ulpExp; omega
  obtain ⟨d, hd⟩ := Int.eq_ofNat_of_zero_le (sub_nonneg.mpr hu)
  have he : e = ulpExp ((m : ℚ) * 2 ^ e) + d := by omega
  have hq : (m : ℚ) * 2 ^ e / 2 ^ ulpExp ((m : ℚ) * 2 ^ e) = ((m * 2 ^ d : ℤ) : ℚ) := by
    have hp2 : (0 : ℚ) < 2 ^ ulpExp ((m : ℚ) * 2 ^ e) := by positivity
    rw [div_eq_iff hp2.ne']
    conv_lhs => rw [he]
    rw [zpow_add₀ (by norm_num), zpow_natCast]
    push_cast
    ring
  unfold roundFinite
  rw [hq, roundHalfEven_intCast, ← hq]
  field_simp

theorem roundDouble_of_isDouble {q : ℚ} (h : IsDouble q) : roundDouble q = .fin q := by
  have hlt := abs_lt_of_representable h
  have e : (2 : ℚ) ^ ((971 : ℤ) + 53) = 2 ^ 1024 := by norm_num
  rw [e, abs_lt] at hlt
  unfold roundDouble
  rw [roundFinite_of_representable h, if_neg (not_le.mpr hlt.2), if_neg (not_le.mpr hlt.1)]

theorem isDouble_intCast (n : ℤ) (h : |n| < 2 ^ 53) : IsDouble (n : ℚ) :=
  ⟨n, 0, h, by norm_num, by norm_num, by simp⟩

theorem roundDouble_intCast (n : ℤ) (h : |n| < 2 ^ 53) : roundDouble (n : ℚ) = .fin (n : ℚ) :=
  roundDouble_of_isDouble (isDouble_intCast n h)

theorem roundDouble_natCast (n : ℕ) (h : n < 2 ^ 53) : roundDouble (n : ℚ) = .fin (n : ℚ) := by
  have := roundDouble_intCast (n : ℤ) (by rw [abs_of_nonneg (by positivity)]; exact_mod_cast h)
  simpa using this

theorem representable_mul_four {E : ℤ} {q : ℚ} (h : Representable E q) :
    Representable (E + 2) (4 * q) := by
  obtain ⟨m, e, hm, he1, he2, rfl⟩ := h
  refine ⟨m, e + 2, hm, by omega, by omega, ?_⟩
  rw [zpow_add₀ (by norm_num)]
  norm_num
  ring

/-- The scaled integer that rounding produces is below `2^53` in size, or
equal to it. -/
theorem abs_roundHalfEven_scaled_le (q : ℚ) :
    |roundHalfEven (q / 2 ^ ulpExp q)| ≤ 2 ^ 53 := by
  have hp : (0 : ℚ) < 2 ^ ulpExp q := by positivity
  have hlt : |q / 2 ^ ulpExp q| < 2 ^ 53 := by
    rw [abs_div, abs_of_pos hp, div_lt_iff₀ hp]
    calc |q| < (2 : ℚ) ^ (Int.log 2 |q| + 1) := lt_zpow_log_succ |q|
      _ ≤ 2 ^ (ulpExp q + 53) := zpow_le_zpow_right₀ (by norm_num) (by unfold ulpExp; omega)
      _ = 2 ^ 53 * 2 ^ ulpExp q := by
        rw [zpow_add₀ (by norm_num)]; norm_num; ring
  have hr := abs_roundHalfEven_sub_le (q / 2 ^ ulpExp q)
  have h1 : |(roundHalfEven (q / 2 ^ ulpExp q) : ℚ)| < 2 ^ 53 + 1 := by
    have := abs_sub_abs_le_abs_sub (roundHalfEven (q / 2 ^ ulpExp q) : ℚ) (q / 2 ^ ulpExp q)
    linarith
  have h2 : |roundHalfEven (q / 2 ^ ulpExp q)| < 2 ^ 53 + 1 := by exact_mod_cast h1
  omega

/-- A rounding result that does not overflow is a double, with an exponent
one above that of the rounded number at most. -/
theorem representable_roundFinite (q : ℚ) (E : ℤ) (hE : ulpExp q + 1 ≤ E) :
    Representable E (roundFinite q) := by
  have hle := abs_roundHalfEven_scaled_le q
  have hu : -1074 ≤ ulpExp q := by unfold ulpExp; omega
  rcases lt_or_eq_of_le hle with hlt | heq
  · exact ⟨roundHalfEven (q / 2 ^ ulpExp q), ulpExp q, hlt, hu, by omega, rfl⟩
  · rcases abs_eq (by norm_num : (0 : ℤ) ≤ 2 ^ 53) |>.mp heq with h | h
    · refine ⟨2 ^ 52, ulpExp q + 1, by norm_num, by omega, hE, ?_⟩
      unfold roundFinite
      rw [h, zpow_add₀ (by norm_num)]
      norm_num
      ring
    · refine ⟨-2 ^ 52, ulpExp q + 1, by norm_num, by omega, hE, ?_⟩
      unfold roundFinite
      rw [h, zpow_add₀ (by norm_num)]
      norm_num
      ring

theorem ulpExp_le_of_abs_lt (q : ℚ) (K : ℤ) (hK : 1 ≤ K) (h : |q| < (2 : ℚ) ^ K) :
    ulpExp q ≤ K - 53 := by
  by_cases hq : q = 0
  · subst hq
    unfold ulpExp
    rw [abs_zero, Int.log_zero_right]
    omega
  have hpos : 0 < |q| := abs_pos.mpr hq
  have : Int.log 2 |q| < K := (Int.lt_zpow_iff_log_lt (by norm_num) hpos).mp (by exact_mod_cast h)
  unfold ulpExp
  omega

/-- Evaluation of a rounding in the normal range from a candidate `m`. -/
theorem roundDouble_eval (q : ℚ) (k m : ℤ)
    (h1 : (2 : ℚ) ^ k ≤ q) (h2 : q < (2 : ℚ) ^ (k + 1)) (hk : -1022 ≤ k)
    (hm : |q / 2 ^ (k - 52) - m| < 1 / 2)
    (hlo : -(2 : ℚ) ^ 1024 < (m : ℚ) * 2 ^ (k - 52))
    (hhi : (m : ℚ) * 2 ^ (k - 52) < 2 ^ 1024) :
    roundDouble q = .fin ((m : ℚ) * 2 ^ (k - 52)) := by
  have hpos : 0 < q := lt_of_lt_of_le (by positivity) h1
  have he : ulpExp q = k - 52 := by
    unfold ulpExp
    rw [abs_of_pos hpos, log_eq_of_bounds q k h1 h2]
    omega
  have hr : roundFinite q = (m : ℚ) * 2 ^ (k - 52) := by
    unfold roundFinite
    rw [he, roundHalfEven_of_abs_lt _ m hm]
  unfold roundDouble
  rw [hr, if_neg (not_le.mpr hhi), if_neg (not_le.mpr hlo)]

/-- Scaling by four commutes with rounding in the normal range. -/
theorem roundFinite_four_mul (q : ℚ) (h : (2 : ℚ) ^ (-1022 : ℤ) ≤ |q|) :
    roundFinite (4 * q) = 4 * roundFinite q := by
  have hpos : 0 < |q| := lt_of_lt_of_le (by positivity) h
  have h4 : |4 * q| = 4 * |q| := by rw [abs_mul]; norm_num
  have hlog : Int.log 2 |4 * q| = Int.log 2 |q| + 2 := by
    apply log_eq_of_bounds
    · rw [h4, zpow_add₀ (by norm_num)]
      have := zpow_log_le |q| hpos
      norm_num
      linarith
    · rw [h4, show Int.log 2 |q| + 2 + 1 = (Int.log 2 |q| + 1) + 2 by ring,
        zpow_add₀ (by norm_num)]
      have := lt_zpow_log_succ |q|
      norm_num
      linarith
  have hn : (-1022 : ℤ) ≤ Int.log 2 |q| :=
    (Int.zpow_le_iff_le_log (by norm_num) hpos).mp (by exact_mod_cast h)
  have hu : ulpExp (4 * q) = ulpExp q + 2 := by
    unfold ulpExp
    rw [hlog]
    omega
  have hs : 4 * q / 2 ^ (ulpExp q + 2) = q / 2 ^ ulpExp q := by
    rw [zpow_add₀ (by norm_num)]
    field_simp
    ring
  unfold roundFinite
  rw [hu, hs, zpow_add₀ (by norm_num)]
  norm_num
  ring


/-- Evaluation of a rounded square root from a candidate `m0`. -/
theorem sqrtRound_eval (q : ℚ) (h : ℤ) (m0 : ℕ)
    (h1 : (2 : ℚ) ^ (2 * h) ≤ q) (h2 : q < (2 : ℚ) ^ (2 * h + 2))
    (h3 : (m0 : ℚ) ^ 2 ≤ q / 2 ^ (2 * (h - 52)))
    (h4 : q / 2 ^ (2 * (h - 52)) < ((m0 : ℚ) + 1 / 2) ^ 2) :
    sqrtRound q = (m0 : ℚ) * 2 ^ (h - 52) := by
  have hpos : 0 < q := lt_of_lt_of_le (by positivity) h1
  have ha : 2 * h ≤ Int.log 2 q :=
    (Int.zpow_le_iff_le_log (by norm_num) hpos).mp (by exact_mod_cast h1)
  have hb : Int.log 2 q < 2 * h + 2 :=
    (Int.lt_zpow_iff_log_lt (by norm_num) hpos).mp (by exact_mod_cast h2)
  have he : Int.log 2 q / 2 - 52 = h - 52 := by omega
  have hx0 : 0 ≤ q / 2 ^ (2 * (h - 52)) := by positivity
  have hs : Nat.sqrt ⌊q / 2 ^ (2 * (h - 52))⌋₊ = m0 := by
    symm
    rw [Nat.eq_sqrt']
    constructor
    · apply Nat.le_floor
      push_cast
      exact h3
    · rw [Nat.floor_lt hx0]
      push_cast
      have : ((m0 : ℚ) + 1 / 2) ^ 2 ≤ ((m0 : ℚ) + 1) ^ 2 := by
        have : (0 : ℚ) ≤ m0 := by positivity
        nlinarith
      linarith
  unfold sqrtRound
  simp only [he, hs, if_pos h4]

/-- The rounded square root is within half a unit in the last place of the
real square root. -/
theorem sqrtRound_nearest (q : ℚ) (hq : 0 < q) :
    |((sqrtRound q : ℚ) : ℝ) - Real.sqrt (q : ℝ)|
      ≤ (2 : ℝ) ^ (Int.log 2 q / 2 - 52) / 2 := by
  set e : ℤ := Int.log 2 q / 2 - 52 with he
  set x : ℚ := q / 2 ^ (2 * e) with hx
  set m0 : ℕ := Nat.sqrt ⌊x⌋₊ with hm0
  have hp : (0 : ℝ) < (2 : ℝ) ^ e := by positivity
  have hxpos : 0 < x := by positivity
  have hqx : (q : ℝ) = (x : ℝ) * ((2 : ℝ) ^ e) ^ 2 := by
    have : q = x * ((2 : ℚ) ^ e) ^ 2 := by
      rw [hx, ← zpow_natCast, ← zpow_mul, mul_comm e]
      field_simp
    rw [this]
    push_cast
    ring
  have hsq : Real.sqrt (q : ℝ) = Real.sqrt (x : ℝ) * (2 : ℝ) ^ e := by
    rw [hqx, Real.sqrt_mul (by positivity), Real.sqrt_sq hp.le]
  have hlo : (m0 : ℝ) ≤ Real.sqrt (x : ℝ) := by
    apply Real.le_sqrt_of_sq_le
    have h1 : m0 * m0 ≤ ⌊x⌋₊ := Nat.sqrt_le _
    have h2 : ((⌊x⌋₊ : ℕ) : ℚ) ≤ x := Nat.floor_le hxpos.le
    have h3 : ((m0 * m0 : ℕ) : ℚ) ≤ x := le_trans (by exact_mod_cast h1) h2
    have h4 : ((m0 : ℚ)) ^ 2 ≤ x := by push_cast at h3; rw [sq]; exact h3
    exact_mod_cast h4
  have hhi : Real.sqrt (x : ℝ) < (m0 : ℝ) + 1 := by
    rw [Real.sqrt_lt' (by positivity)]
    have h1 : ⌊x⌋₊ < (m0 + 1) * (m0 + 1) := Nat.lt_succ_sqrt _
    have h2 : x < (⌊x⌋₊ : ℚ) + 1 := Nat.lt_floor_add_one x
    have h3 : ((⌊x⌋₊ : ℕ) : ℚ) + 1 ≤ (((m0 + 1) * (m0 + 1) : ℕ) : ℚ) := by exact_mod_cast h1
    have h4 : x < ((m0 : ℚ) + 1) ^ 2 := by
      push_cast at h3; rw [sq]; linarith
    exact_mod_cast h4
  have key : ∀ m : ℕ, |(m : ℝ) - Real.sqrt (x : ℝ)| ≤ 1 / 2 →
      |(((m : ℚ) * 2 ^ e : ℚ) : ℝ) - Real.sqrt (q : ℝ)| ≤ (2 : ℝ) ^ e / 2 := by
    intro m hm
    have e1 : (((m : ℚ) * 2 ^ e : ℚ) : ℝ) - Real.sqrt (q : ℝ)
        = ((m : ℝ) - Real.sqrt (x : ℝ)) * (2 : ℝ) ^ e := by
      rw [hsq]; push_cast; ring
    rw [e1, abs_mul, abs_of_pos hp]
    calc |(m : ℝ) - Real.sqrt (x : ℝ)| * (2 : ℝ) ^ e ≤ 1 / 2 * (2 : ℝ) ^ e :=
          mul_le_mul_of_nonneg_right hm hp.le
      _ = (2 : ℝ) ^ e / 2 := by ring
  have hdef : sqrtRound q =
      ((if x < ((m0 : ℚ) + 1 / 2) ^ 2 then m0
        else if ((m0 : ℚ) + 1 / 2) ^ 2 < x then m0 + 1
        else if m0 % 2 = 0 then m0 else m0 + 1 : ℕ) : ℚ) * 2 ^ e := rfl
  rw [hdef]
  by_cases c1 : x < ((m0 : ℚ) + 1 / 2) ^ 2
  · rw [if_pos c1]
    apply key
    have : Real.sqrt (x : ℝ) < (m0 : ℝ) + 1 / 2 := by
      rw [Real.sqrt_lt' (by positivity)]
      have c1r : (x : ℝ) < ((((m0 : ℚ) + 1 / 2) ^ 2 : ℚ) : ℝ) := Rat.cast_lt.mpr c1
      push_cast at c1r
      exact c1r
    rw [abs_le]; constructor <;> linarith
  · rw [if_neg c1]
    by_cases c2 : ((m0 : ℚ) + 1 / 2) ^ 2 < x
    · rw [if_pos c2]
      apply key
      have : (m0 : ℝ) + 1 / 2 ≤ Real.sqrt (x : ℝ) := by
        apply Real.le_sqrt_of_sq_le
        have c2r : ((((m0 : ℚ) + 1 / 2) ^ 2 : ℚ) : ℝ) ≤ (x : ℝ) := Rat.cast_le.mpr c2.le
        push_cast at c2r
        exact c2r
      rw [abs_le]; push_cast; constructor <;> linarith
    · rw [if_neg c2]
      have hxe : x = ((m0 : ℚ) + 1 / 2) ^ 2 := le_antisymm (not_lt.mp c2) (not_lt.mp c1)
      have : Real.sqrt (x : ℝ) = (m0 : ℝ) + 1 / 2 := by
        rw [hxe]; push_cast
        exact Real.sqrt_sq (by positivity)
      split
      · apply key; rw [this, abs_le]; constructor <;> linarith
      · apply key; rw [this, abs_le]; push_cast; constructor <;> linarith

/-! ## Frame and counting lemmas -/

theorem drawLoop_frame (rnd : Nat → ℚ × ℚ) (n i : Nat) (s : State) :
    (drawLoop rnd n i s).totalPoints = s.totalPoints ∧
    (drawLoop rnd n i s).isPaused = s.isPaused ∧
    (drawLoop rnd n i s).simulationSpeed = s.simulationSpeed ∧
    (drawLoop rnd n i s).radius = s.radius ∧
    (drawLoop rnd n i s).isComplete = s.isComplete := by
  induction n generalizing i s with
  | zero => simp [drawLoop]
  | succ n ih =>
    unfold drawLoop
    split
    · have h := ih (i + 1) (drawPoint (rnd i) s)
      simpa [drawPoint] using h
    · simp

theorem drawLoop_currentPoints (rnd : Nat → ℚ × ℚ) (n i : Nat) (s : State)
    (h : s.currentPoints ≤ s.totalPoints) :
    (drawLoop rnd n i s).currentPoints = min (s.currentPoints + n) s.totalPoints := by
  induction n generalizing i s with
  | zero => simp [drawLoop, h]
  | succ n ih =>
    unfold drawLoop
    split
    · rename_i hlt
      have h1 : (drawPoint (rnd i) s).currentPoints ≤ (drawPoint (rnd i) s).totalPoints := by
        simp only [drawPoint]; omega
      rw [ih (i + 1) _ h1]
      simp only [drawPoint]
      omega
    · omega

theorem drawLoop_of_ge (rnd : Nat → ℚ × ℚ) (n i : Nat) (s : State)
    (h : s.totalPoints ≤ s.currentPoints) : drawLoop rnd n i s = s := by
  cases n with
  | zero => rfl
  | succ n => simp [drawLoop, Nat.not_lt.mpr h]

theorem drawPoint_counted (r : ℚ × ℚ) (s : State) (h : Counted s) :
    Counted (drawPoint r s) := by
  obtain ⟨h1, h2⟩ := h
  unfold Counted drawPoint
  constructor
  · dsimp only
    split <;> omega
  · simp [h2]

theorem drawLoop_counted (rnd : Nat → ℚ × ℚ) (n i : Nat) (s : State) (h : Counted s) :
    Counted (drawLoop rnd n i s) := by
  induction n generalizing i s with
  | zero => simpa [drawLoop] using h
  | succ n ih =>
    unfold drawLoop
    split
    · exact ih _ _ (drawPoint_counted _ _ h)
    · exact h

theorem draw_running (rnd : Nat → ℚ × ℚ) (s : State)
    (hp : s.isPaused = false) (hc : s.isComplete = false) :
    (draw rnd s).1 =
      if (afterLoop rnd s).currentPoints ≥ (afterLoop rnd s).totalPoints then
        { afterLoop rnd s with isComplete := true }
      else afterLoop rnd s := by
  unfold draw afterLoop
  simp only [hp, hc, Bool.not_false, Bool.and_self, if_true]
  split <;> rfl

theorem draw_idle (rnd : Nat → ℚ × ℚ) (s : State)
    (h : s.isPaused = true ∨ s.isComplete = true) :
    draw rnd s = (s, { stats := none, completion := none }) := by
  unfold draw
  rcases h with h | h <;> simp [h]

theorem afterLoop_frame (rnd : Nat → ℚ × ℚ) (s : State) :
    (afterLoop rnd s).totalPoints = s.totalPoints ∧
    (afterLoop rnd s).isPaused = s.isPaused ∧
    (afterLoop rnd s).simulationSpeed = s.simulationSpeed ∧
    (afterLoop rnd s).radius = s.radius ∧
    (afterLoop rnd s).isComplete = s.isComplete := by
  unfold afterLoop
  split
  · exact drawLoop_frame _ _ _ _
  · simp

theorem afterLoop_counted (rnd : Nat → ℚ × ℚ) (s : State) (h : Counted s) :
    Counted (afterLoop rnd s) := by
  unfold afterLoop
  split
  · exact drawLoop_counted _ _ _ _ h
  · exact h

theorem draw_cases (rnd : Nat → ℚ × ℚ) (s : State) :
    (draw rnd s).1 = s ∨
    ((draw rnd s).1 = afterLoop rnd s ∧
      (afterLoop rnd s).currentPoints < (afterLoop rnd s).totalPoints ∧
      s.isPaused = false ∧ s.isComplete = false) ∨
    ((draw rnd s).1 = { afterLoop rnd s with isComplete := true } ∧
      (afterLoop rnd s).totalPoints ≤ (afterLoop rnd s).currentPoints ∧
      s.isPaused = false ∧ s.isComplete = false) := by
  by_cases hp : s.isPaused = true
  · left; rw [draw_idle rnd s (Or.inl hp)]
  by_cases hc : s.isComplete = true
  · left; rw [draw_idle rnd s (Or.inr hc)]
  simp only [Bool.not_eq_true] at hp hc
  rw [draw_running rnd s hp hc]
  split
  · right; right; exact ⟨rfl, by assumption, hp, hc⟩
  · right; left; exact ⟨rfl, by omega, hp, hc⟩

theorem draw_counted (rnd : Nat → ℚ × ℚ) (s : State) (h : Counted s) :
    Counted (draw rnd s).1 := by
  have hl := afterLoop_counted rnd s h
  rcases draw_cases rnd s with h1 | ⟨h1, _⟩ | ⟨h1, _⟩
  · rw [h1]; exact h
  · rw [h1]; exact hl
  · rw [h1]; exact hl

theorem reachableWhen_counted {guard : State → Nat → Prop} {s : State}
    (h : ReachableWhen guard s) : Counted s := by
  induction h with
  | init => simp [Counted, initialState]
  | tick rnd _ ih => exact draw_counted rnd _ ih
  | points n _ _ ih => exact ih
  | speed level _ _ _ ih => exact ih
  | pause _ ih => exact ih
  | reset _ _ => simp [Counted, resetSimulation]

theorem afterLoop_le (rnd : Nat → ℚ × ℚ) (s : State)
    (h : s.currentPoints ≤ s.totalPoints) :
    (afterLoop rnd s).currentPoints ≤ (afterLoop rnd s).totalPoints := by
  unfold afterLoop
  split
  · rw [drawLoop_currentPoints _ _ _ _ h, (drawLoop_frame _ _ _ _).1]
    exact Nat.min_le_right _ _
  · exact h

theorem afterLoop_currentPoints (rnd : Nat → ℚ × ℚ) (s : State) (b : Nat)
    (hb : speedMultipliers s.simulationSpeed = some b)
    (h : s.currentPoints ≤ s.totalPoints) :
    (afterLoop rnd s).currentPoints = min (s.currentPoints + b) s.totalPoints := by
  unfold afterLoop
  rw [hb]
  exact drawLoop_currentPoints _ _ _ _ h

theorem draw_le (rnd : Nat → ℚ × ℚ) (s : State)
    (h : s.currentPoints ≤ s.totalPoints) :
    (draw rnd s).1.currentPoints ≤ (draw rnd s).1.totalPoints := by
  have hl := afterLoop_le rnd s h
  rcases draw_cases rnd s with h1 | ⟨h1, _⟩ | ⟨h1, _⟩
  · rw [h1]; exact h
  · rw [h1]; exact hl
  · rw [h1]; exact hl

/-- Claim C1, amended: in every state reachable by ticks, speed changes,
pause toggles, resets and points-slider changes whose new target is at least
the number of points already generated, `currentPoints <= totalPoints`. -/
theorem currentPoints_le_totalPoints (s : State)
    (h : ReachableWhen (fun t n => t.currentPoints ≤ n) s) :
    s.currentPoints ≤ s.totalPoints := by
  induction h with
  | init => simp [initialState]
  | tick rnd _ ih => exact draw_le rnd _ ih
  | points n _ hg _ => exact hg
  | speed level _ _ _ ih => exact ih
  | pause _ ih => exact ih
  | reset _ _ => simp [resetSimulation]

theorem currentPoints_le_totalPoints_witness :
    (draw centre initialState).1.currentPoints ≤ (draw centre initialState).1.totalPoints :=
  currentPoints_le_totalPoints _ (ReachableWhen.tick centre ReachableWhen.init)

/-- Claim C1 as stated fails: after one tick at the initial settings (10
points) the points slider moves to 5, and `currentPoints` exceeds
`totalPoints`. -/
theorem currentPoints_le_totalPoints_fails :
    Reachable (setTotalPoints 5 (draw centre initialState).1) ∧
    ¬ ((setTotalPoints 5 (draw centre initialState).1).currentPoints ≤
        (setTotalPoints 5 (draw centre initialState).1).totalPoints) := by
  refine ⟨ReachableWhen.points 5 (ReachableWhen.tick centre ReachableWhen.init) trivial, ?_⟩
  decide

theorem draw_completeAtTarget (rnd : Nat → ℚ × ℚ) (s : State) (h : CompleteAtTarget s) :
    CompleteAtTarget (draw rnd s).1 := by
  obtain ⟨h1, h2, h3⟩ := h
  have hl := afterLoop_le rnd s h1
  have hf := afterLoop_frame rnd s
  rcases draw_cases rnd s with e | ⟨e, hlt, _, hc⟩ | ⟨e, hge, _, _⟩
  · rw [e]; exact ⟨h1, h2, h3⟩
  · rw [e]
    refine ⟨hl, by rw [hf.1]; exact h2, ?_⟩
    rw [hf.2.2.2.2, hc]
    constructor
    · intro hh; cases hh
    · intro hh; omega
  · rw [e]
    refine ⟨hl, by show 0 < (afterLoop rnd s).totalPoints; rw [hf.1]; exact h2, ?_⟩
    show true = true ↔ (afterLoop rnd s).currentPoints = (afterLoop rnd s).totalPoints
    constructor
    · intro _; omega
    · intro _; rfl

theorem setTotalPoints_completeAtTarget (n : Nat) (s : State)
    (hc : s.isComplete = false) (hlt : s.currentPoints < n) :
    CompleteAtTarget (setTotalPoints n s) := by
  refine ⟨Nat.le_of_lt hlt, Nat.lt_of_le_of_lt (Nat.zero_le _) hlt, ?_⟩
  show s.isComplete = true ↔ s.currentPoints = n
  rw [hc]
  constructor
  · intro hh; cases hh
  · intro hh; omega

theorem resetSimulation_completeAtTarget (s : State) (h : 0 < s.totalPoints) :
    CompleteAtTarget (resetSimulation s) := by
  refine ⟨Nat.zero_le _, h, ?_⟩
  show false = true ↔ 0 = s.totalPoints
  constructor
  · intro hh; cases hh
  · intro hh; omega

/-- Claim C2, amended: in every state reachable by ticks, speed changes,
pause toggles, resets and points-slider changes that are made before
completion to a target greater than the number of points already generated,
`isComplete` is true if and only if `currentPoints == totalPoints`. -/
theorem isComplete_iff_at_target (s : State)
    (h : ReachableWhen (fun t n => t.isComplete = false ∧ t.currentPoints < n) s) :
    s.isComplete = true ↔ s.currentPoints = s.totalPoints := by
  suffices hs : CompleteAtTarget s from hs.2.2
  induction h with
  | init => simp [CompleteAtTarget, initialState]
  | tick rnd _ ih => exact draw_completeAtTarget rnd _ ih
  | points n _ hg _ => exact setTotalPoints_completeAtTarget n _ hg.1 hg.2
  | speed level _ _ _ ih => exact ih
  | pause _ ih => exact ih
  | reset _ ih => exact resetSimulation_completeAtTarget _ ih.2.1

theorem isComplete_iff_at_target_witness :
    (draw centre (setTotalPoints 7 initialState)).1.isComplete = true ↔
      (draw centre (setTotalPoints 7 initialState)).1.currentPoints =
        (draw centre (setTotalPoints 7 initialState)).1.totalPoints :=
  isComplete_iff_at_target _
    (ReachableWhen.tick centre
      (ReachableWhen.points 7 ReachableWhen.init ⟨rfl, by decide⟩))

/-- Claim C2 as stated fails: when the points slider moves to 0 in the
initial state, `currentPoints == totalPoints` while `isComplete` is false;
and when it moves to 5 after a completed run to 10 points in one tick,
`isComplete` is true while `currentPoints != totalPoints`. -/
theorem isComplete_iff_at_target_fails :
    (Reachable (setTotalPoints 0 initialState) ∧
      (setTotalPoints 0 initialState).currentPoints =
        (setTotalPoints 0 initialState).totalPoints ∧
      (setTotalPoints 0 initialState).isComplete = false) ∧
    (Reachable (setTotalPoints 5 (draw centre (setTotalPoints 10 initialState)).1) ∧
      (setTotalPoints 5 (draw centre (setTotalPoints 10 initialState)).1).isComplete = true ∧
      (setTotalPoints 5 (draw centre (setTotalPoints 10 initialState)).1).currentPoints ≠
        (setTotalPoints 5 (draw centre (setTotalPoints 10 initialState)).1).totalPoints) := by
  refine ⟨⟨ReachableWhen.points 0 ReachableWhen.init trivial, rfl, rfl⟩,
    ⟨ReachableWhen.points 5
      (ReachableWhen.tick centre (ReachableWhen.points 10 ReachableWhen.init trivial)) trivial,
      ?_, ?_⟩⟩
  · decide
  · decide

/-- Claim C3: in every reachable state `0 <= pointsInside <= currentPoints`
and `allPoints.length == currentPoints`. -/
theorem counters_match_history (s : State) (h : Reachable s) :
    0 ≤ s.pointsInside ∧ s.pointsInside ≤ s.currentPoints ∧
    s.allPoints.length = s.currentPoints := by
  have hc := reachableWhen_counted h
  exact ⟨Nat.zero_le _, hc.1, hc.2⟩

theorem counters_match_history_witness :
    0 ≤ (draw centre initialState).1.pointsInside ∧
    (draw centre initialState).1.pointsInside ≤ (draw centre initialState).1.currentPoints ∧
    (draw centre initialState).1.allPoints.length = (draw centre initialState).1.currentPoints :=
  counters_match_history _ (ReachableWhen.tick centre ReachableWhen.init)

/-! ## Runs at a fixed configuration -/

theorem draw_step (rnd : Nat → ℚ × ℚ) (s : State) (b : Nat)
    (hp : s.isPaused = false) (hc : s.isComplete = false)
    (hb : speedMultipliers s.simulationSpeed = some b)
    (hle : s.currentPoints ≤ s.totalPoints) :
    (draw rnd s).1.isPaused = false ∧
    (draw rnd s).1.simulationSpeed = s.simulationSpeed ∧
    (draw rnd s).1.totalPoints = s.totalPoints ∧
    (draw rnd s).1.currentPoints = min (s.currentPoints + b) s.totalPoints ∧
    ((draw rnd s).1.isComplete = true ↔ s.totalPoints ≤ s.currentPoints + b) := by
  have hf := afterLoop_frame rnd s
  have hcp := afterLoop_currentPoints rnd s b hb hle
  rw [draw_running rnd s hp hc]
  split
  · rename_i hge
    refine ⟨?_, ?_, ?_, ?_, ?_⟩
    · show (afterLoop rnd s).isPaused = false
      rw [hf.2.1]; exact hp
    · exact hf.2.2.1
    · exact hf.1
    · exact hcp
    · show true = true ↔ _
      rw [hf.1, hcp] at hge
      constructor
      · intro _; omega
      · intro _; rfl
  · rename_i hlt
    refine ⟨?_, hf.2.2.1, hf.1, hcp, ?_⟩
    · rw [hf.2.1]; exact hp
    · rw [hf.2.2.2.2, hc]
      rw [hf.1, hcp] at hlt
      constructor
      · intro hh; cases hh
      · intro hh; omega

theorem draw_progressed (rnd : Nat → ℚ × ℚ) (T b m : Nat) (s : State)
    (h : Progressed T b m s) : Progressed T b (m + b) (draw rnd s).1 := by
  obtain ⟨hp, hb, hT, hcur, hcomp⟩ := h
  by_cases hc : s.isComplete = true
  · have hm : T ≤ m := hcomp.mp hc
    rw [draw_idle rnd s (Or.inr hc)]
    refine ⟨hp, hb, hT, ?_, ?_⟩
    · show s.currentPoints = min (m + b) T
      omega
    · show s.isComplete = true ↔ T ≤ m + b
      constructor
      · intro _; omega
      · intro _; exact hc
  · simp only [Bool.not_eq_true] at hc
    have hm : m < T := by
      by_contra hcon
      have := hcomp.mpr (by omega)
      rw [hc] at this
      cases this
    have hle : s.currentPoints ≤ s.totalPoints := by omega
    obtain ⟨h1, h2, h3, h4, h5⟩ := draw_step rnd s b hp hc hb hle
    refine ⟨h1, by rw [h2]; exact hb, by rw [h3]; exact hT, ?_, ?_⟩
    · rw [h4]; omega
    · rw [h5]; omega

theorem drawTicks_progressed (rnds : List (Nat → ℚ × ℚ)) (T b m : Nat) (s : State)
    (h : Progressed T b m s) :
    Progressed T b (m + rnds.length * b) (drawTicks rnds s) := by
  induction rnds generalizing m s with
  | nil => simpa [drawTicks] using h
  | cons rnd rest ih =>
    have h1 := ih (m + b) (draw rnd s).1 (draw_progressed rnd T b m s h)
    have e : m + b + rest.length * b = m + (rnd :: rest).length * b := by
      simp [List.length_cons, Nat.succ_mul]; omega
    rw [e] at h1
    exact h1

theorem drawTicks_idle (rnds : List (Nat → ℚ × ℚ)) (s : State)
    (h : s.isPaused = true ∨ s.isComplete = true) : drawTicks rnds s = s := by
  induction rnds with
  | nil => rfl
  | cons rnd rest ih =>
    show drawTicks rest (draw rnd s).1 = s
    rw [draw_idle rnd s h]
    exact ih

theorem drawTicks_from_reset (s0 : State) (b : Nat)
    (hb : speedMultipliers s0.simulationSpeed = some b)
    (rnds : List (Nat → ℚ × ℚ)) (hk : 1 ≤ rnds.length) :
    Progressed s0.totalPoints b (rnds.length * b) (drawTicks rnds (resetSimulation s0)) := by
  cases rnds with
  | nil => simp at hk
  | cons rnd rest =>
    have hs := draw_step rnd (resetSimulation s0) b rfl rfl hb (Nat.zero_le _)
    obtain ⟨h1, h2, h3, h4, h5⟩ := hs
    have hP : Progressed s0.totalPoints b b (draw rnd (resetSimulation s0)).1 := by
      refine ⟨h1, by rw [h2]; exact hb, h3, ?_, ?_⟩
      · rw [h4]; show min (0 + b) s0.totalPoints = _; simp
      · rw [h5]; show s0.totalPoints ≤ 0 + b ↔ _; simp
    have := drawTicks_progressed rest s0.totalPoints b b _ hP
    have e : b + rest.length * b = (rnd :: rest).length * b := by
      simp [List.length_cons, Nat.succ_mul]; omega
    rw [e] at this
    exact this

/-- Claim C4: from a freshly reset state with target `T` and a rate level of
batch size `b`, after `k >= 1` ticks `currentPoints == min(k*b, T)` and
`isComplete` holds exactly when `k*b >= T`, after which further ticks change
nothing.  With `T = 50` at level 3 the run is complete with 50 points after
5 ticks, not complete after 4, and a 6th tick changes nothing; with `T = 0`
a single tick completes the run with no point. -/
theorem ticks_from_reset :
    (∀ (s0 : State) (b : Nat) (rnds : List (Nat → ℚ × ℚ)),
      speedMultipliers s0.simulationSpeed = some b → 1 ≤ rnds.length →
      (drawTicks rnds (resetSimulation s0)).currentPoints
          = min (rnds.length * b) s0.totalPoints ∧
      ((drawTicks rnds (resetSimulation s0)).isComplete = true
          ↔ rnds.length * b ≥ s0.totalPoints) ∧
      (rnds.length * b ≥ s0.totalPoints → ∀ more : List (Nat → ℚ × ℚ),
        drawTicks more (drawTicks rnds (resetSimulation s0))
          = drawTicks rnds (resetSimulation s0))) ∧
    (∀ (s0 : State) (rnds : List (Nat → ℚ × ℚ)),
      s0.totalPoints = 50 → s0.simulationSpeed = 3 →
      (rnds.length = 4 →
        (drawTicks rnds (resetSimulation s0)).isComplete = false ∧
        (drawTicks rnds (resetSimulation s0)).currentPoints = 40) ∧
      (rnds.length = 5 →
        (drawTicks rnds (resetSimulation s0)).isComplete = true ∧
        (drawTicks rnds (resetSimulation s0)).currentPoints = 50 ∧
        ∀ rnd, draw rnd (drawTicks rnds (resetSimulation s0))
          = (drawTicks rnds (resetSimulation s0), { stats := none, completion := none }))) ∧
    (∀ (s0 : State) (rnd : Nat → ℚ × ℚ), s0.totalPoints = 0 →
      (draw rnd (resetSimulation s0)).1.isComplete = true ∧
      (draw rnd (resetSimulation s0)).1.currentPoints = 0) := by
  refine ⟨?_, ?_, ?_⟩
  · intro s0 b rnds hb hk
    obtain ⟨_, _, _, h4, h5⟩ := drawTicks_from_reset s0 b hb rnds hk
    refine ⟨h4, h5, ?_⟩
    intro hge more
    exact drawTicks_idle more _ (Or.inr (h5.mpr hge))
  · intro s0 rnds hT hS
    have hb : speedMultipliers s0.simulationSpeed = some 10 := by rw [hS]; rfl
    constructor
    · intro h4
      obtain ⟨_, _, _, e4, e5⟩ := drawTicks_from_reset s0 10 hb rnds (by omega)
      rw [h4, hT] at e4 e5
      refine ⟨?_, by rw [e4]; rfl⟩
      cases hc : (drawTicks rnds (resetSimulation s0)).isComplete with
      | false => rfl
      | true => exact absurd (e5.mp hc) (by decide)
    · intro h5
      obtain ⟨_, _, _, e4, e5⟩ := drawTicks_from_reset s0 10 hb rnds (by omega)
      rw [h5, hT] at e4 e5
      have hc := e5.mpr (by decide)
      exact ⟨hc, by rw [e4]; rfl, fun rnd => draw_idle rnd _ (Or.inr hc)⟩
  · intro s0 rnd hT
    have hge : (resetSimulation s0).totalPoints ≤ (resetSimulation s0).currentPoints := by
      show s0.totalPoints ≤ 0
      omega
    have hl : afterLoop rnd (resetSimulation s0) = resetSimulation s0 := by
      unfold afterLoop
      split
      · exact drawLoop_of_ge _ _ _ _ hge
      · rfl
    rw [draw_running rnd (resetSimulation s0) rfl rfl, hl, if_pos hge]
    exact ⟨rfl, rfl⟩

theorem ticks_from_reset_witness :
    (drawTicks [centre, centre, centre, centre, centre] (resetSimulation
        (setTotalPoints 50 initialState))).currentPoints = min (5 * 10) 50 ∧
    ((drawTicks [centre, centre, centre, centre, centre] (resetSimulation
        (setTotalPoints 50 initialState))).isComplete = true ↔ 5 * 10 ≥ 50) :=
  ⟨(ticks_from_reset.1 (setTotalPoints 50 initialState) 10
      [centre, centre, centre, centre, centre] rfl (by decide)).1,
   (ticks_from_reset.1 (setTotalPoints 50 initialState) 10
      [centre, centre, centre, centre, centre] rfl (by decide)).2.1⟩

/-- Claim C5: in a state that is paused or complete, any number of ticks
leaves every field of the state unchanged, and no tick shows anything. -/
theorem idle_ticks_change_nothing (s : State)
    (h : s.isPaused = true ∨ s.isComplete = true) :
    (∀ rnds : List (Nat → ℚ × ℚ), drawTicks rnds s = s) ∧
    (∀ rnd : Nat → ℚ × ℚ, draw rnd s = (s, { stats := none, completion := none })) :=
  ⟨fun rnds => drawTicks_idle rnds s h, fun rnd => draw_idle rnd s h⟩

theorem idle_ticks_change_nothing_witness :
    drawTicks [centre, centre, centre] (togglePause initialState) = togglePause initialState ∧
    draw centre (togglePause initialState)
      = (togglePause initialState, { stats := none, completion := none }) :=
  ⟨(idle_ticks_change_nothing (togglePause initialState) (Or.inl rfl)).1
      [centre, centre, centre],
   (idle_ticks_change_nothing (togglePause initialState) (Or.inl rfl)).2 centre⟩

/-- Claim C6: from any state `resetSimulation` yields zero counters, an
empty history, `isPaused == false` and `isComplete == false`, and leaves
`totalPoints` and `simulationSpeed` (and `radius`) as they were. -/
theorem resetSimulation_spec (s : State) :
    (resetSimulation s).currentPoints = 0 ∧
    (resetSimulation s).pointsInside = 0 ∧
    (resetSimulation s).allPoints = [] ∧
    (resetSimulation s).isPaused = false ∧
    (resetSimulation s).isComplete = false ∧
    (resetSimulation s).totalPoints = s.totalPoints ∧
    (resetSimulation s).simulationSpeed = s.simulationSpeed ∧
    (resetSimulation s).radius = s.radius :=
  ⟨rfl, rfl, rfl, rfl, rfl, rfl, rfl, rfl⟩

/-! ## Evaluation of the arithmetic -/

theorem representable_mono {E F : ℤ} {q : ℚ} (h : Representable E q) (hEF : E ≤ F) :
    Representable F q := by
  obtain ⟨m, e, hm, he1, he2, hq⟩ := h
  exact ⟨m, e, hm, he1, by omega, hq⟩

theorem roundDouble_of_eq_int (q : ℚ) (n : ℤ) (hq : q = (n : ℚ)) (hn : |n| < 2 ^ 53) :
    roundDouble q = .fin q := by
  subst hq
  exact roundDouble_intCast n hn

/-- A result below `2^K` in size does not overflow, and its rounding is a
double with exponent at most `K - 52`. -/
theorem roundDouble_of_abs_lt (q : ℚ) (K : ℤ) (hK1 : 1 ≤ K) (hK2 : K ≤ 1023)
    (h : |q| < (2 : ℚ) ^ K) :
    roundDouble q = .fin (roundFinite q) ∧ Representable (K - 52) (roundFinite q) := by
  have hu := ulpExp_le_of_abs_lt q K hK1 h
  have hr := representable_roundFinite q (K - 52) (by omega)
  have hlt := abs_lt_of_representable hr
  have hle : (2 : ℚ) ^ (K - 52 + 53) ≤ 2 ^ (1024 : ℤ) :=
    zpow_le_zpow_right₀ (by norm_num) (by omega)
  have e : (2 : ℚ) ^ (1024 : ℤ) = 2 ^ 1024 := by norm_num
  rw [e] at hle
  have hlt2 : |roundFinite q| < 2 ^ 1024 := lt_of_lt_of_le hlt hle
  rw [abs_lt] at hlt2
  refine ⟨?_, hr⟩
  unfold roundDouble
  rw [if_neg (not_le.mpr hlt2.2), if_neg (not_le.mpr hlt2.1)]

theorem half_of_500 : JSNum.div (.fin 500) (.fin 2) = .fin 250 := by
  have h : roundDouble (500 / 2) = .fin (500 / 2) :=
    roundDouble_of_eq_int _ 250 (by norm_num) (by norm_num)
  simp only [JSNum.div]
  rw [if_neg (by norm_num), h]
  norm_num

/-- The computed distance, step by step, from the results of the five
roundings. -/
theorem distance_steps (x y dx dy sx sy S : ℚ)
    (hdx : roundDouble (x - 250) = .fin dx) (hdy : roundDouble (y - 250) = .fin dy)
    (hsx : roundDouble (dx * dx) = .fin sx) (hsy : roundDouble (dy * dy) = .fin sy)
    (hS : roundDouble (sx + sy) = .fin S) (hS0 : 0 ≤ S) :
    distance x y = .fin (sqrtRound S) := by
  unfold distance
  simp only [width, height, half_of_500, JSNum.sub, hdx, hdy, JSNum.mul, hsx, hsy, JSNum.add,
    hS, JSNum.sqrt]
  rw [if_neg (not_lt.mpr hS0)]

theorem distance_centre : distance 250 250 = .fin 0 := by
  have h0 : roundDouble (250 - 250) = .fin 0 := by norm_num [roundDouble_zero]
  have h1 : roundDouble (0 * 0) = .fin 0 := by norm_num [roundDouble_zero]
  have h2 : roundDouble (0 + 0) = .fin 0 := by norm_num [roundDouble_zero]
  rw [distance_steps 250 250 0 0 0 0 0 h0 h0 h1 h1 h2 le_rfl]
  simp [sqrtRound]

theorem distance_outer : distance 490 350 = .fin 260 := by
  have hdx : roundDouble (490 - 250) = .fin 240 := by
    rw [roundDouble_of_eq_int _ 240 (by norm_num) (by norm_num)]; norm_num
  have hdy : roundDouble (350 - 250) = .fin 100 := by
    rw [roundDouble_of_eq_int _ 100 (by norm_num) (by norm_num)]; norm_num
  have hsx : roundDouble (240 * 240) = .fin 57600 := by
    rw [roundDouble_of_eq_int _ 57600 (by norm_num) (by norm_num)]; norm_num
  have hsy : roundDouble (100 * 100) = .fin 10000 := by
    rw [roundDouble_of_eq_int _ 10000 (by norm_num) (by norm_num)]; norm_num
  have hS : roundDouble (57600 + 10000) = .fin 67600 := by
    rw [roundDouble_of_eq_int _ 67600 (by norm_num) (by norm_num)]; norm_num
  rw [distance_steps 490 350 240 100 57600 10000 67600 hdx hdy hsx hsy hS (by norm_num)]
  have := sqrtRound_eval 67600 8 (260 * 2 ^ 44) (by norm_num) (by norm_num) (by norm_num)
    (by norm_num)
  rw [this]
  norm_num

theorem isInside_of_radius (s : State) (hr : s.radius = 500) (x y : ℚ) :
    isInside s x y = JSNum.le (distance x y) (.fin 250) := by
  unfold isInside
  rw [hr, half_of_500]

theorem isInside_centre (s : State) (hr : s.radius = 500) : isInside s 250 250 = true := by
  rw [isInside_of_radius s hr, distance_centre]
  simp [JSNum.le]

theorem isInside_outer (s : State) (hr : s.radius = 500) : isInside s 490 350 = false := by
  rw [isInside_of_radius s hr, distance_outer]
  simp [JSNum.le]
  norm_num

/-! ## Distance between the computed and the exact test -/

theorem roundHalfEven_nonneg (r : ℚ) (h : 0 ≤ r) : 0 ≤ roundHalfEven r := by
  have hf : 0 ≤ ⌊r⌋ := Int.floor_nonneg.mpr h
  unfold roundHalfEven
  split_ifs <;> omega

theorem roundFinite_nonneg (q : ℚ) (h : 0 ≤ q) : 0 ≤ roundFinite q := by
  unfold roundFinite
  have h1 : 0 ≤ roundHalfEven (q / 2 ^ ulpExp q) := roundHalfEven_nonneg _ (by positivity)
  have h2 : (0 : ℚ) ≤ (roundHalfEven (q / 2 ^ ulpExp q) : ℚ) := by exact_mod_cast h1
  positivity

/-- A result below `2^K` in size is rounded with an error of `2^(K-54)` at
most. -/
theorem abs_roundFinite_sub_le_of_lt (q : ℚ) (K : ℤ) (hK : 1 ≤ K) (h : |q| < (2 : ℚ) ^ K) :
    |roundFinite q - q| ≤ (2 : ℚ) ^ (K - 54) := by
  have h1 := abs_roundFinite_sub_le q
  have h2 := ulpExp_le_of_abs_lt q K hK h
  have h3 : (2 : ℚ) ^ ulpExp q ≤ 2 ^ (K - 53) := zpow_le_zpow_right₀ (by norm_num) h2
  have e : (2 : ℚ) ^ (K - 53) / 2 = 2 ^ (K - 54) := by
    rw [show K - 53 = (K - 54) + 1 by ring, zpow_add₀ (by norm_num)]
    norm_num
  calc |roundFinite q - q| ≤ 2 ^ ulpExp q / 2 := h1
    _ ≤ 2 ^ (K - 53) / 2 := by linarith
    _ = 2 ^ (K - 54) := e

/-- One coordinate: the rounded square of the rounded difference is finite,
not negative, at most 63002, and within `2^-36` of the exact square. -/
theorem square_of_difference (x : ℚ) (h0 : 0 ≤ x) (h1 : x ≤ 500) :
    ∃ d A : ℚ, roundDouble (x - 250) = .fin d ∧ roundDouble (d * d) = .fin A ∧
      0 ≤ A ∧ A ≤ 63002 ∧ |A - (x - 250) ^ 2| ≤ 1 / 2 ^ 36 := by
  have ha : |x - 250| ≤ 250 := by rw [abs_le]; constructor <;> linarith
  have ha2 : |x - 250| < (2 : ℚ) ^ (8 : ℤ) := by
    have : (2 : ℚ) ^ (8 : ℤ) = 256 := by norm_num
    rw [this]; linarith
  obtain ⟨hd, _⟩ := roundDouble_of_abs_lt (x - 250) 8 (by norm_num) (by norm_num) ha2
  have hde := abs_roundFinite_sub_le_of_lt (x - 250) 8 (by norm_num) ha2
  have e46 : (2 : ℚ) ^ ((8 : ℤ) - 54) = 1 / 2 ^ 46 := by norm_num
  rw [e46] at hde
  set d := roundFinite (x - 250) with hdd
  have hd1 : |d| ≤ 251 := by
    have := abs_sub_abs_le_abs_sub d (x - 250)
    have h46 : (1 : ℚ) / 2 ^ 46 ≤ 1 := by norm_num
    linarith
  have hdd2 : 0 ≤ d * d := mul_self_nonneg d
  have hsq : d * d ≤ 63001 := by
    have : d * d = |d| * |d| := (abs_mul_abs_self d).symm
    rw [this]
    nlinarith [abs_nonneg d]
  have hA2 : |d * d| < (2 : ℚ) ^ (16 : ℤ) := by
    have : (2 : ℚ) ^ (16 : ℤ) = 65536 := by norm_num
    rw [this, abs_of_nonneg hdd2]; linarith
  obtain ⟨hA, _⟩ := roundDouble_of_abs_lt (d * d) 16 (by norm_num) (by norm_num) hA2
  have hAe := abs_roundFinite_sub_le_of_lt (d * d) 16 (by norm_num) hA2
  have e38 : (2 : ℚ) ^ ((16 : ℤ) - 54) = 1 / 2 ^ 38 := by norm_num
  rw [e38] at hAe
  refine ⟨d, roundFinite (d * d), hd, hA, roundFinite_nonneg _ hdd2, ?_, ?_⟩
  · rw [abs_le] at hAe
    have h38 : (1 : ℚ) / 2 ^ 38 ≤ 1 := by norm_num
    linarith
  · have hdiff : |d * d - (x - 250) ^ 2| ≤ 1 / 2 ^ 46 * 501 := by
      have e : d * d - (x - 250) ^ 2 = (d - (x - 250)) * (d + (x - 250)) := by ring
      rw [e, abs_mul]
      have h2 : |d + (x - 250)| ≤ 501 := by
        have := abs_add d (x - 250)
        linarith
      exact mul_le_mul hde h2 (abs_nonneg _) (by norm_num)
    have htri : |roundFinite (d * d) - (x - 250) ^ 2|
        ≤ |roundFinite (d * d) - d * d| + |d * d - (x - 250) ^ 2| := by
      have := abs_add (roundFinite (d * d) - d * d) (d * d - (x - 250) ^ 2)
      rwa [sub_add_sub_cancel] at this
    have hnum : (1 : ℚ) / 2 ^ 38 + 1 / 2 ^ 46 * 501 ≤ 1 / 2 ^ 36 := by norm_num
    linarith

/-- The computed distance of a draw on the canvas is the rounded root of a
number `S` within `2^-34` of the exact squared distance. -/
theorem distance_of_canvas (x y : ℚ) (hx0 : 0 ≤ x) (hx1 : x ≤ 500)
    (hy0 : 0 ≤ y) (hy1 : y ≤ 500) :
    ∃ S : ℚ, distance x y = .fin (sqrtRound S) ∧ 0 ≤ S ∧ S < 2 ^ 17 ∧
      |S - ((x - 250) ^ 2 + (y - 250) ^ 2)| ≤ 1 / 2 ^ 34 := by
  obtain ⟨dx, A, hdx, hA, hA0, hA1, hAe⟩ := square_of_difference x hx0 hx1
  obtain ⟨dy, B, hdy, hB, hB0, hB1, hBe⟩ := square_of_difference y hy0 hy1
  have hs0 : 0 ≤ A + B := by linarith
  have hs2 : |A + B| < (2 : ℚ) ^ (17 : ℤ) := by
    have : (2 : ℚ) ^ (17 : ℤ) = 131072 := by norm_num
    rw [this, abs_of_nonneg hs0]; linarith
  obtain ⟨hS, _⟩ := roundDouble_of_abs_lt (A + B) 17 (by norm_num) (by norm_num) hs2
  have hSe := abs_roundFinite_sub_le_of_lt (A + B) 17 (by norm_num) hs2
  have e37 : (2 : ℚ) ^ ((17 : ℤ) - 54) = 1 / 2 ^ 37 := by norm_num
  rw [e37] at hSe
  have hS0 : 0 ≤ roundFinite (A + B) := roundFinite_nonneg _ hs0
  refine ⟨roundFinite (A + B), distance_steps x y dx dy A B _ hdx hdy hA hB hS hS0, hS0, ?_, ?_⟩
  · rw [abs_le] at hSe
    have h37 : (1 : ℚ) / 2 ^ 37 ≤ 1 := by norm_num
    have : (2 : ℚ) ^ 17 = 131072 := by norm_num
    rw [this]; linarith
  · rw [abs_le] at hSe hAe hBe ⊢
    have hnum : (1 : ℚ) / 2 ^ 37 + 1 / 2 ^ 36 + 1 / 2 ^ 36 ≤ 1 / 2 ^ 34 := by norm_num
    constructor <;> linarith

/-- The rounded root of a number below `2^17` is within `2^-45` of the real
root. -/
theorem sqrtRound_error (S : ℚ) (h0 : 0 < S) (h1 : S < 2 ^ 17) :
    |((sqrtRound S : ℚ) : ℝ) - Real.sqrt (S : ℝ)| ≤ 1 / 2 ^ 45 := by
  have h := sqrtRound_nearest S h0
  have hlog : Int.log 2 S < 17 :=
    (Int.lt_zpow_iff_log_lt (by norm_num) h0).mp (by
      have : ((2 : ℕ) : ℚ) ^ (17 : ℤ) = 2 ^ 17 := by norm_num
      rw [this]; exact h1)
  have he : Int.log 2 S / 2 - 52 ≤ -44 := by omega
  have hz : (2 : ℝ) ^ (Int.log 2 S / 2 - 52) ≤ 2 ^ (-44 : ℤ) :=
    zpow_le_zpow_right₀ (by norm_num) he
  have e : (2 : ℝ) ^ (-44 : ℤ) / 2 = 1 / 2 ^ 45 := by norm_num
  linarith

/-- Away from the circle the computed test is the exact one: a draw on the
canvas whose exact squared distance to the centre is at most `250^2 - 2^-30`
is flagged inside, and one whose exact squared distance is at least
`250^2 + 2^-30` is flagged outside. -/
theorem computed_test_of_margin (x y : ℚ) (hx0 : 0 ≤ x) (hx1 : x ≤ 500)
    (hy0 : 0 ≤ y) (hy1 : y ≤ 500) :
    ((x - 250) ^ 2 + (y - 250) ^ 2 ≤ 250 ^ 2 - 1 / 2 ^ 30 →
      JSNum.le (distance x y) (.fin 250) = true) ∧
    (250 ^ 2 + 1 / 2 ^ 30 ≤ (x - 250) ^ 2 + (y - 250) ^ 2 →
      JSNum.le (distance x y) (.fin 250) = false) := by
  obtain ⟨S, hd, hS0, hS1, hSe⟩ := distance_of_canvas x y hx0 hx1 hy0 hy1
  rw [hd, abs_le] at *
  simp only [JSNum.le, decide_eq_true_eq, decide_eq_false_iff_not, not_le]
  constructor
  · intro h
    rcases eq_or_lt_of_le hS0 with hz | hpos
    · rw [← hz]
      simp [sqrtRound]
    · have herr := sqrtRound_error S hpos hS1
      rw [abs_le] at herr
      have hS2 : S ≤ (250 - 1 / 2 ^ 40) ^ 2 := by
        have : (62500 : ℚ) - 1 / 2 ^ 30 + 1 / 2 ^ 34 ≤ (250 - 1 / 2 ^ 40) ^ 2 := by norm_num
        linarith
      have hsq : Real.sqrt (S : ℝ) ≤ 250 - 1 / 2 ^ 40 := by
        rw [Real.sqrt_le_left (by norm_num)]
        have : ((S : ℚ) : ℝ) ≤ (((250 - 1 / 2 ^ 40) ^ 2 : ℚ) : ℝ) := Rat.cast_le.mpr hS2
        push_cast at this
        exact this
      have hfin : ((sqrtRound S : ℚ) : ℝ) ≤ ((250 : ℚ) : ℝ) := by
        push_cast
        have : (1 : ℝ) / 2 ^ 45 ≤ 1 / 2 ^ 40 := by norm_num
        linarith
      exact Rat.cast_le.mp hfin
  · intro h
    have hpos : 0 < S := by
      have : (0 : ℚ) < 62500 + 1 / 2 ^ 30 - 1 / 2 ^ 34 := by norm_num
      linarith
    have herr := sqrtRound_error S hpos hS1
    rw [abs_le] at herr
    have hS2 : (250 + 1 / 2 ^ 41) ^ 2 ≤ S := by
      have : (250 + 1 / 2 ^ 41) ^ 2 ≤ (62500 : ℚ) + 1 / 2 ^ 30 - 1 / 2 ^ 34 := by norm_num
      linarith
    have hsq : (250 : ℝ) + 1 / 2 ^ 41 ≤ Real.sqrt (S : ℝ) := by
      apply Real.le_sqrt_of_sq_le
      have : ((((250 : ℚ) + 1 / 2 ^ 41) ^ 2 : ℚ) : ℝ) ≤ ((S : ℚ) : ℝ) := Rat.cast_le.mpr hS2
      push_cast at this
      exact this
    have hfin : ((250 : ℚ) : ℝ) < ((sqrtRound S : ℚ) : ℝ) := by
      push_cast
      have : (1 : ℝ) / 2 ^ 45 < 1 / 2 ^ 41 := by norm_num
      linarith
    exact Rat.cast_lt.mp hfin

theorem roundDouble_of_eq (q : ℚ) (m e : ℤ) (hq : q = (m : ℚ) * 2 ^ e) (hm : |m| < 2 ^ 53)
    (he1 : -1074 ≤ e) (he2 : e ≤ 971) : roundDouble q = .fin q :=
  roundDouble_of_isDouble ⟨m, e, hm, he1, he2, hq⟩

theorem distance_nearBoundary : distance 0 nearBoundary = .fin 250 := by
  have hdx : roundDouble (0 - 250) = .fin (-250) := by
    rw [roundDouble_of_eq_int _ (-250) (by norm_num) (by norm_num)]; norm_num
  have hdy : roundDouble (nearBoundary - 250) = .fin (16777217 / 2 ^ 44) := by
    rw [roundDouble_of_eq _ 16777217 (-44) (by norm_num [nearBoundary]) (by norm_num)
      (by norm_num) (by norm_num)]
    norm_num [nearBoundary]
  have hsx : roundDouble (-250 * -250) = .fin 62500 := by
    rw [roundDouble_of_eq_int _ 62500 (by norm_num) (by norm_num)]; norm_num
  have hsy : roundDouble (16777217 / 2 ^ 44 * (16777217 / 2 ^ 44))
      = .fin (281475010265089 / 2 ^ 88) := by
    rw [roundDouble_of_eq _ 281475010265089 (-88) (by norm_num) (by norm_num)
      (by norm_num) (by norm_num)]
    norm_num
  have hS : roundDouble (62500 + 281475010265089 / 2 ^ 88) = .fin 62500 := by
    rw [roundDouble_eval _ 15 (62500 * 2 ^ 37) (by norm_num) (by norm_num) (by norm_num)
      (by rw [abs_lt]; norm_num) (by norm_num) (by norm_num)]
    norm_num
  rw [distance_steps 0 nearBoundary (-250) (16777217 / 2 ^ 44) 62500
    (281475010265089 / 2 ^ 88) 62500 hdx hdy hsx hsy hS (by norm_num)]
  have := sqrtRound_eval 62500 7 (250 * 2 ^ 45) (by norm_num) (by norm_num) (by norm_num)
    (by norm_num)
  rw [this]
  norm_num

theorem isInside_nearBoundary (s : State) (hr : s.radius = 500) :
    isInside s 0 nearBoundary = true := by
  rw [isInside_of_radius s hr, distance_nearBoundary]
  simp [JSNum.le]

/-! ## Classification of samples -/

theorem isInside_radius (s t : State) (h : t.radius = s.radius) (x y : ℚ) :
    isInside t x y = isInside s x y := by
  unfold isInside
  rw [h]

theorem drawPoint_classified (r : ℚ × ℚ) (s : State) (h : Classified s) :
    Classified (drawPoint r s) := by
  obtain ⟨hr, hp⟩ := h
  refine ⟨hr, ?_⟩
  intro p hmem
  rw [isInside_radius s (drawPoint r s) rfl]
  have hmem2 : p ∈ s.allPoints ++ [{ x := r.1, y := r.2, inside := isInside s r.1 r.2 }] := hmem
  rcases List.mem_append.mp hmem2 with h1 | h1
  · exact hp p h1
  · rw [List.mem_singleton] at h1
    rw [h1]

theorem drawLoop_classified (rnd : Nat → ℚ × ℚ) (n i : Nat) (s : State) (h : Classified s) :
    Classified (drawLoop rnd n i s) := by
  induction n generalizing i s with
  | zero => simpa [drawLoop] using h
  | succ n ih =>
    unfold drawLoop
    split
    · exact ih _ _ (drawPoint_classified _ _ h)
    · exact h

theorem afterLoop_classified (rnd : Nat → ℚ × ℚ) (s : State) (h : Classified s) :
    Classified (afterLoop rnd s) := by
  unfold afterLoop
  split
  · exact drawLoop_classified _ _ _ _ h
  · exact h

theorem draw_classified (rnd : Nat → ℚ × ℚ) (s : State) (h : Classified s) :
    Classified (draw rnd s).1 := by
  have hl := afterLoop_classified rnd s h
  rcases draw_cases rnd s with h1 | ⟨h1, _⟩ | ⟨h1, _⟩
  · rw [h1]; exact h
  · rw [h1]; exact hl
  · rw [h1]; exact hl

theorem reachableWhen_classified {guard : State → Nat → Prop} {s : State}
    (h : ReachableWhen guard s) : Classified s := by
  induction h with
  | init => exact ⟨rfl, by simp [initialState]⟩
  | tick rnd _ ih => exact draw_classified rnd _ ih
  | points n _ _ ih => exact ih
  | speed level _ _ _ ih => exact ih
  | pause _ ih => exact ih
  | reset _ ih => exact ⟨ih.1, by simp [resetSimulation]⟩

/-- Claim C7, amended: in a reachable state, `drawPoint` with the draw
`(x, y)` appends one record `(x, y, inside)` where `inside` is true if and
only if the distance as the script computes it in double arithmetic, the
rounded root of the rounded sum of the rounded squares of the rounded
differences `x - 250` and `y - 250`, is at most `radius / 2 = 250`; it
increments `pointsInside` exactly when `inside` is true; every record stored
in a reachable state has the flag that this computed test gives its stored
coordinates; and for a draw on the canvas the computed test is the exact
Euclidean one whenever the exact squared distance to the centre differs from
`250^2` by at least `2^-30`. -/
theorem inside_flag_consistent (s : State) (h : Reachable s) :
    JSNum.div (.fin s.radius) (.fin 2) = .fin 250 ∧
    (∀ x y : ℚ, ∃ inside : Bool,
      (drawPoint (x, y) s).allPoints = s.allPoints ++ [{ x := x, y := y, inside := inside }] ∧
      (inside = true ↔ JSNum.le (distance x y) (.fin 250) = true) ∧
      (drawPoint (x, y) s).pointsInside
        = (if inside = true then s.pointsInside + 1 else s.pointsInside) ∧
      (drawPoint (x, y) s).currentPoints = s.currentPoints + 1) ∧
    (∀ p ∈ s.allPoints,
      (p.inside = true ↔ JSNum.le (distance p.x p.y) (.fin 250) = true)) ∧
    (∀ x y : ℚ, 0 ≤ x → x ≤ 500 → 0 ≤ y → y ≤ 500 →
      ((x - 250) ^ 2 + (y - 250) ^ 2 ≤ 250 ^ 2 - 1 / 2 ^ 30 →
        JSNum.le (distance x y) (.fin 250) = true) ∧
      (250 ^ 2 + 1 / 2 ^ 30 ≤ (x - 250) ^ 2 + (y - 250) ^ 2 →
        JSNum.le (distance x y) (.fin 250) = false)) := by
  obtain ⟨hr, hp⟩ := reachableWhen_classified h
  refine ⟨by rw [hr]; exact half_of_500, ?_, ?_, ?_⟩
  · intro x y
    refine ⟨isInside s x y, rfl, ?_, rfl, rfl⟩
    rw [isInside_of_radius s hr]
  · intro p hmem
    rw [hp p hmem, isInside_of_radius s hr]
  · intro x y hx0 hx1 hy0 hy1
    exact computed_test_of_margin x y hx0 hx1 hy0 hy1

theorem inside_flag_consistent_witness :
    Reachable (draw centre initialState).1 ∧
    ∃ inside : Bool,
      (drawPoint (490, 350) (draw centre initialState).1).allPoints
        = (draw centre initialState).1.allPoints ++ [{ x := 490, y := 350, inside := inside }] ∧
      (inside = true ↔ JSNum.le (distance 490 350) (.fin 250) = true) ∧
      (drawPoint (490, 350) (draw centre initialState).1).pointsInside
        = (if inside = true then (draw centre initialState).1.pointsInside + 1
            else (draw centre initialState).1.pointsInside) ∧
      (drawPoint (490, 350) (draw centre initialState).1).currentPoints
        = (draw centre initialState).1.currentPoints + 1 :=
  ⟨ReachableWhen.tick centre ReachableWhen.init,
    (inside_flag_consistent _ (ReachableWhen.tick centre ReachableWhen.init)).2.1 490 350⟩

/-- Claim C7 as stated fails: `Math.random()` can return 0 and
`0.5 + 8589935 / 2^52`, which `random(500)` turns into the draw
`(0, 250 + 2^-20 + 2^-44)`; at level 1 the tick stores that draw with
`inside == true`, although its squared distance to the centre exceeds
`250^2` and its Euclidean distance exceeds 250. -/
theorem inside_flag_consistent_fails :
    roundDouble (0 * 500) = .fin 0 ∧
    roundDouble ((1 / 2 + 8589935 / 2 ^ 52) * 500) = .fin nearBoundary ∧
    Reachable (draw (fun _ => (0, nearBoundary)) (setSimulationSpeed 1 initialState)).1 ∧
    (draw (fun _ => (0, nearBoundary)) (setSimulationSpeed 1 initialState)).1.allPoints
      = [{ x := 0, y := nearBoundary, inside := true }] ∧
    (draw (fun _ => (0, nearBoundary)) (setSimulationSpeed 1 initialState)).1.pointsInside = 1 ∧
    ¬ ((0 - width / 2) ^ 2 + (nearBoundary - height / 2) ^ 2
        ≤ (initialState.radius / 2) ^ 2) ∧
    ¬ (Real.sqrt (((0 : ℝ) - 500 / 2) ^ 2 + ((nearBoundary : ℝ) - 500 / 2) ^ 2) ≤ 500 / 2) := by
  refine ⟨by norm_num [roundDouble_zero], ?_,
    ReachableWhen.tick _ (ReachableWhen.speed 1 ReachableWhen.init (by decide) (by decide)),
    ?_, ?_, ?_, ?_⟩
  · rw [roundDouble_eval _ 7 (250 * 2 ^ 45 + 33554434) (by norm_num) (by norm_num)
      (by norm_num) (by rw [abs_lt]; norm_num) (by norm_num) (by norm_num)]
    norm_num [nearBoundary]
  · simp [draw, drawLoop, drawPoint, speedMultipliers, setSimulationSpeed, initialState,
      isInside_nearBoundary]
  · simp [draw, drawLoop, drawPoint, speedMultipliers, setSimulationSpeed, initialState,
      isInside_nearBoundary]
  · norm_num [width, height, initialState, nearBoundary]
  · rw [Real.sqrt_le_left (by norm_num)]
    norm_num [nearBoundary]

/-! ## Statistics -/

/-- The quotient of two counters below `2^53` is finite: the double nearest
to the exact quotient, with exponent at most 1. -/
theorem div_counters (a c : ℕ) (hc : 0 < c) (ha : a < 2 ^ 53) :
    JSNum.div (.fin (a : ℚ)) (.fin (c : ℚ)) = .fin (roundFinite ((a : ℚ) / (c : ℚ))) ∧
    Representable 1 (roundFinite ((a : ℚ) / (c : ℚ))) := by
  have hcq : (1 : ℚ) ≤ (c : ℚ) := by exact_mod_cast hc
  have haq : (a : ℚ) < 2 ^ 53 := by exact_mod_cast ha
  have h0 : (0 : ℚ) ≤ (a : ℚ) / (c : ℚ) := by positivity
  have hlt : |(a : ℚ) / (c : ℚ)| < (2 : ℚ) ^ (53 : ℤ) := by
    rw [abs_of_nonneg h0]
    have : (a : ℚ) / (c : ℚ) ≤ (a : ℚ) := div_le_self (by positivity) hcq
    have e : (2 : ℚ) ^ (53 : ℤ) = 2 ^ 53 := by norm_num
    rw [e]
    linarith
  obtain ⟨h1, h2⟩ := roundDouble_of_abs_lt _ 53 (by norm_num) (by norm_num) hlt
  refine ⟨?_, h2⟩
  simp only [JSNum.div]
  rw [if_neg (by positivity), h1]

theorem quotient_normal (a c : ℕ) (ha : 0 < a) (hc : 0 < c) (hc2 : c < 2 ^ 53) :
    (2 : ℚ) ^ (-1022 : ℤ) ≤ |(a : ℚ) / (c : ℚ)| := by
  have haq : (1 : ℚ) ≤ (a : ℚ) := by exact_mod_cast ha
  have hcq : (0 : ℚ) < (c : ℚ) := by exact_mod_cast hc
  have hcq2 : (c : ℚ) < 2 ^ 53 := by exact_mod_cast hc2
  rw [abs_of_nonneg (by positivity), le_div_iff₀ hcq]
  have h1 : (2 : ℚ) ^ (-1022 : ℤ) ≤ 1 / 2 ^ 53 := by
    rw [show (1 : ℚ) / 2 ^ 53 = (2 : ℚ) ^ (-53 : ℤ) by norm_num]
    exact zpow_le_zpow_right₀ (by norm_num) (by norm_num)
  calc (2 : ℚ) ^ (-1022 : ℤ) * (c : ℚ) ≤ 1 / 2 ^ 53 * (c : ℚ) :=
        mul_le_mul_of_nonneg_right h1 hcq.le
    _ ≤ 1 / 2 ^ 53 * 2 ^ 53 := mul_le_mul_of_nonneg_left hcq2.le (by positivity)
    _ = 1 := by norm_num
    _ ≤ (a : ℚ) := haq

/-- The rounding error of the quotient of two counters. -/
theorem quotient_error (a c : ℕ) (hc : 0 < c) (hc2 : c < 2 ^ 53) :
    |roundFinite ((a : ℚ) / (c : ℚ)) - (a : ℚ) / (c : ℚ)| ≤ (a : ℚ) / (c : ℚ) / 2 ^ 53 := by
  rcases Nat.eq_zero_or_pos a with h0 | hpos
  · subst h0
    simp [roundFinite_zero]
  · have h := abs_roundFinite_sub_le_rel _ (quotient_normal a c hpos hc hc2)
    rwa [abs_of_nonneg (by positivity : (0 : ℚ) ≤ (a : ℚ) / (c : ℚ))] at h

theorem piApproximation_eq (s : State) (hc : 0 < s.currentPoints)
    (ha : s.pointsInside < 2 ^ 53) :
    (updateStats s).piApproximation
      = .fin (4 * roundFinite ((s.pointsInside : ℚ) / (s.currentPoints : ℚ))) := by
  obtain ⟨h1, h2⟩ := div_counters s.pointsInside s.currentPoints hc ha
  have h3 : IsDouble (4 * roundFinite ((s.pointsInside : ℚ) / (s.currentPoints : ℚ))) :=
    representable_mono (representable_mul_four h2) (by norm_num)
  show (if s.currentPoints > 0 then
      JSNum.mul (.fin 4) (JSNum.div (.fin (s.pointsInside : ℚ)) (.fin (s.currentPoints : ℚ)))
    else .fin 0) = _
  rw [if_pos hc, h1]
  simp only [JSNum.mul]
  exact roundDouble_of_isDouble h3

/-- Claim C8, amended: the pi estimate of `updateStats` is exactly 0 when
`currentPoints == 0`; when `currentPoints > 0` (counters below `2^53`) it is
4 times the double nearest to `pointsInside / currentPoints`, which is also
the double nearest to `4 * pointsInside / currentPoints`, within a relative
error of `2^-53` of that quotient and equal to it whenever
`pointsInside / currentPoints` is itself a double; it is exactly 3 for 4
points of which 3 are inside. -/
theorem piApproximation_spec :
    (∀ s : State, s.currentPoints = 0 → (updateStats s).piApproximation = .fin 0) ∧
    (∀ s : State, 0 < s.currentPoints → s.currentPoints < 2 ^ 53 → s.pointsInside < 2 ^ 53 →
      (updateStats s).piApproximation
        = .fin (4 * roundFinite ((s.pointsInside : ℚ) / (s.currentPoints : ℚ))) ∧
      (updateStats s).piApproximation
        = roundDouble (4 * (s.pointsInside : ℚ) / (s.currentPoints : ℚ)) ∧
      |4 * roundFinite ((s.pointsInside : ℚ) / (s.currentPoints : ℚ))
          - 4 * (s.pointsInside : ℚ) / (s.currentPoints : ℚ)|
        ≤ 4 * (s.pointsInside : ℚ) / (s.currentPoints : ℚ) / 2 ^ 53 ∧
      (IsDouble ((s.pointsInside : ℚ) / (s.currentPoints : ℚ)) →
        (updateStats s).piApproximation
          = .fin (4 * (s.pointsInside : ℚ) / (s.currentPoints : ℚ)))) ∧
    (∀ s : State, s.currentPoints = 4 → s.pointsInside = 3 →
      (updateStats s).piApproximation = .fin 3) := by
  refine ⟨?_, ?_, ?_⟩
  · intro s h
    show (if s.currentPoints > 0 then
        JSNum.mul (.fin 4) (JSNum.div (.fin (s.pointsInside : ℚ)) (.fin (s.currentPoints : ℚ)))
      else .fin 0) = _
    rw [if_neg (by omega)]
  · intro s hc hc2 ha
    have hpi := piApproximation_eq s hc ha
    obtain ⟨_, h2⟩ := div_counters s.pointsInside s.currentPoints hc ha
    have h3 : IsDouble (4 * roundFinite ((s.pointsInside : ℚ) / (s.currentPoints : ℚ))) :=
      representable_mono (representable_mul_four h2) (by norm_num)
    refine ⟨hpi, ?_, ?_, ?_⟩
    · rw [hpi]
      rcases Nat.eq_zero_or_pos s.pointsInside with h0 | hpos
      · rw [h0]
        simp [roundFinite_zero, roundDouble_zero]
      · have hs := roundFinite_four_mul _ (quotient_normal _ _ hpos hc hc2)
        rw [← hs] at h3 ⊢
        have hlt := abs_lt_of_representable h3
        have e1 : (2 : ℚ) ^ ((971 : ℤ) + 53) = 2 ^ 1024 := by norm_num
        rw [e1, abs_lt] at hlt
        have e : 4 * (s.pointsInside : ℚ) / (s.currentPoints : ℚ)
            = 4 * ((s.pointsInside : ℚ) / (s.currentPoints : ℚ)) := by ring
        rw [e]
        unfold roundDouble
        rw [if_neg (not_le.mpr hlt.2), if_neg (not_le.mpr hlt.1)]
    · have h := quotient_error s.pointsInside s.currentPoints hc hc2
      have e : 4 * roundFinite ((s.pointsInside : ℚ) / (s.currentPoints : ℚ))
            - 4 * (s.pointsInside : ℚ) / (s.currentPoints : ℚ)
          = 4 * (roundFinite ((s.pointsInside : ℚ) / (s.currentPoints : ℚ))
            - (s.pointsInside : ℚ) / (s.currentPoints : ℚ)) := by ring
      rw [e, abs_mul, abs_of_pos (by norm_num : (0 : ℚ) < 4)]
      calc 4 * |roundFinite ((s.pointsInside : ℚ) / (s.currentPoints : ℚ))
              - (s.pointsInside : ℚ) / (s.currentPoints : ℚ)|
          ≤ 4 * ((s.pointsInside : ℚ) / (s.currentPoints : ℚ) / 2 ^ 53) :=
            mul_le_mul_of_nonneg_left h (by norm_num)
        _ = 4 * (s.pointsInside : ℚ) / (s.currentPoints : ℚ) / 2 ^ 53 := by ring
    · intro hd
      rw [hpi, roundFinite_of_representable hd]
      congr 1
      ring
  · intro s h4 h3
    have hd : IsDouble ((s.pointsInside : ℚ) / (s.currentPoints : ℚ)) := by
      rw [h4, h3]
      exact ⟨3, -2, by norm_num, by norm_num, by norm_num, by norm_num⟩
    rw [piApproximation_eq s (by omega) (by rw [h3]; norm_num),
      roundFinite_of_representable hd, h4, h3]
    norm_num

theorem piApproximation_spec_witness :
    (updateStats (draw centre initialState).1).piApproximation
      = .fin (4 * roundFinite (((draw centre initialState).1.pointsInside : ℚ)
          / ((draw centre initialState).1.currentPoints : ℚ))) ∧
    (updateStats (draw centre initialState).1).piApproximation
      = roundDouble (4 * ((draw centre initialState).1.pointsInside : ℚ)
          / ((draw centre initialState).1.currentPoints : ℚ)) ∧
    |4 * roundFinite (((draw centre initialState).1.pointsInside : ℚ)
          / ((draw centre initialState).1.currentPoints : ℚ))
        - 4 * ((draw centre initialState).1.pointsInside : ℚ)
          / ((draw centre initialState).1.currentPoints : ℚ)|
      ≤ 4 * ((draw centre initialState).1.pointsInside : ℚ)
          / ((draw centre initialState).1.currentPoints : ℚ) / 2 ^ 53 ∧
    (IsDouble (((draw centre initialState).1.pointsInside : ℚ)
          / ((draw centre initialState).1.currentPoints : ℚ)) →
      (updateStats (draw centre initialState).1).piApproximation
        = .fin (4 * ((draw centre initialState).1.pointsInside : ℚ)
          / ((draw centre initialState).1.currentPoints : ℚ))) :=
  piApproximation_spec.2.1 (draw centre initialState).1 (by decide) (by decide)
    (Nat.lt_of_le_of_lt
      (reachableWhen_counted
        (show Reachable (draw centre initialState).1 from
          ReachableWhen.tick centre ReachableWhen.init)).1
      (by decide))

theorem twoOfThree_eq :
    twoOfThree =
      { totalPoints := 10000, currentPoints := 3, pointsInside := 2,
        allPoints := [{ x := 250, y := 250, inside := true },
                      { x := 250, y := 250, inside := true },
                      { x := 490, y := 350, inside := false }],
        isPaused := false, simulationSpeed := 1, radius := 500, isComplete := false } := by
  simp [twoOfThree, drawTicks, draw, drawLoop, drawPoint, speedMultipliers, setSimulationSpeed,
    initialState, centre, outer, isInside_centre, isInside_outer]

/-- Claim C8 as stated fails: in the reachable state `twoOfThree` (3 points
generated at level 1, 2 of them inside) the pi estimate is the double
`6004799503160661 / 2^51`, not `4 * 2 / 3`. -/
theorem piApproximation_spec_fails :
    Reachable twoOfThree ∧
    twoOfThree.currentPoints = 3 ∧ twoOfThree.pointsInside = 2 ∧
    (updateStats twoOfThree).piApproximation = .fin (6004799503160661 / 2 ^ 51) ∧
    (updateStats twoOfThree).piApproximation ≠ .fin (4 * 2 / 3) := by
  have hreach : Reachable twoOfThree :=
    ReachableWhen.tick outer
      (ReachableWhen.tick centre
        (ReachableWhen.tick centre
          (ReachableWhen.speed 1 ReachableWhen.init (by decide) (by decide))))
  have hq : roundFinite ((2 : ℚ) / 3) = 6004799503160661 / 2 ^ 53 := by
    have h := roundDouble_eval (2 / 3) (-1) 6004799503160661 (by norm_num) (by norm_num)
      (by norm_num) (by rw [abs_lt]; norm_num) (by norm_num) (by norm_num)
    have h2 := (roundDouble_of_abs_lt (2 / 3) 1 (by norm_num) (by norm_num)
      (by rw [abs_lt]; norm_num)).1
    rw [h] at h2
    injection h2 with h3
    rw [← h3]
    norm_num
  have hpi : (updateStats twoOfThree).piApproximation = .fin (6004799503160661 / 2 ^ 51) := by
    rw [twoOfThree_eq, piApproximation_eq _ (by decide) (by decide)]
    show JSNum.fin (4 * roundFinite (((2 : ℕ) : ℚ) / ((3 : ℕ) : ℚ))) = _
    push_cast
    rw [hq]
    norm_num
  refine ⟨hreach, by rw [twoOfThree_eq], by rw [twoOfThree_eq], hpi, ?_⟩
  rw [hpi]
  intro h
  injection h with h
  norm_num at h

/-- Claim C9, amended: when `totalPoints > 0` (counters below `2^53`) the
progress value of `updateStats` is the double that `(currentPoints /
totalPoints) * 100` evaluates to, rounding after the division and after the
multiplication: a finite value within a relative error of `2^-51` of
`currentPoints / totalPoints * 100`, and exactly 100 when `currentPoints ==
totalPoints`.  The division is not guarded: when `totalPoints == 0` the value
is `NaN` for `currentPoints == 0` and `Infinity` otherwise. -/
theorem progress_spec (s : State) :
    (0 < s.totalPoints → s.totalPoints < 2 ^ 53 → s.currentPoints < 2 ^ 53 →
      ∃ v : ℚ, (updateStats s).progress = .fin v ∧
        v = roundFinite (roundFinite ((s.currentPoints : ℚ) / (s.totalPoints : ℚ)) * 100) ∧
        |v - (s.currentPoints : ℚ) / (s.totalPoints : ℚ) * 100|
          ≤ (s.currentPoints : ℚ) / (s.totalPoints : ℚ) * 100 / 2 ^ 51) ∧
    (0 < s.totalPoints → s.totalPoints < 2 ^ 53 → s.currentPoints = s.totalPoints →
      (updateStats s).progress = .fin 100) ∧
    (s.totalPoints = 0 → s.currentPoints = 0 → (updateStats s).progress = .nan) ∧
    (s.totalPoints = 0 → 0 < s.currentPoints → (updateStats s).progress = .posInf) := by
  have hdef : (updateStats s).progress
      = JSNum.mul (JSNum.div (.fin (s.currentPoints : ℚ)) (.fin (s.totalPoints : ℚ)))
          (.fin 100) := rfl
  refine ⟨?_, ?_, ?_, ?_⟩
  · intro hT hT2 hc
    obtain ⟨h1, h2⟩ := div_counters s.currentPoints s.totalPoints hT hc
    have hu := quotient_error s.currentPoints s.totalPoints hT hT2
    have hr0 : (0 : ℚ) ≤ (s.currentPoints : ℚ) / (s.totalPoints : ℚ) := by positivity
    have hr1 : (s.currentPoints : ℚ) / (s.totalPoints : ℚ) = 0
        ∨ 1 / 2 ^ 53 ≤ (s.currentPoints : ℚ) / (s.totalPoints : ℚ) := by
      rcases Nat.eq_zero_or_pos s.currentPoints with h0 | hpos
      · left; rw [h0]; simp
      · right
        have hTq : (0 : ℚ) < (s.totalPoints : ℚ) := by exact_mod_cast hT
        have hTq2 : (s.totalPoints : ℚ) < 2 ^ 53 := by exact_mod_cast hT2
        have hcq : (1 : ℚ) ≤ (s.currentPoints : ℚ) := by exact_mod_cast hpos
        rw [le_div_iff₀ hTq]
        linarith
    generalize (s.currentPoints : ℚ) / (s.totalPoints : ℚ) = r at h1 h2 hu hr0 hr1 ⊢
    have hlt := abs_lt_of_representable h2
    have hlt2 : |roundFinite r * 100| < (2 : ℚ) ^ (61 : ℤ) := by
      rw [abs_mul, abs_of_pos (by norm_num : (0 : ℚ) < 100)]
      have e : (2 : ℚ) ^ ((1 : ℤ) + 53) = 2 ^ 54 := by norm_num
      rw [e] at hlt
      have e2 : (2 : ℚ) ^ (61 : ℤ) = 2 ^ 54 * 128 := by norm_num
      rw [e2]
      nlinarith [abs_nonneg (roundFinite r)]
    obtain ⟨h3, _⟩ := roundDouble_of_abs_lt _ 61 (by norm_num) (by norm_num) hlt2
    refine ⟨roundFinite (roundFinite r * 100), ?_, rfl, ?_⟩
    · rw [hdef, h1]
      simp only [JSNum.mul]
      exact h3
    · rcases hr1 with h0 | hpos
      · subst h0
        simp [roundFinite_zero]
      · rw [abs_le] at hu
        have hu1 : r / 2 ≤ roundFinite r := by linarith
        have hpos2 : (0 : ℚ) < roundFinite r * 100 := by linarith
        have hn : (2 : ℚ) ^ (-1022 : ℤ) ≤ |roundFinite r * 100| := by
          rw [abs_of_pos hpos2]
          have hs : (2 : ℚ) ^ (-1022 : ℤ) ≤ 1 / 2 ^ 53 := by
            rw [show (1 : ℚ) / 2 ^ 53 = (2 : ℚ) ^ (-53 : ℤ) by norm_num]
            exact zpow_le_zpow_right₀ (by norm_num) (by norm_num)
          have h50 : (1 : ℚ) / 2 ^ 53 ≤ roundFinite r * 100 := by
            have hp : (0 : ℚ) ≤ r := hr0
            linarith
          exact le_trans hs h50
        have hv := abs_roundFinite_sub_le_rel _ hn
        rw [abs_of_pos hpos2, abs_le] at hv
        rw [abs_le]
        constructor <;> linarith
  · intro hT hT2 hc
    rw [hdef, hc]
    have hne : (s.totalPoints : ℚ) ≠ 0 := by positivity
    have h1 : roundDouble ((s.totalPoints : ℚ) / (s.totalPoints : ℚ)) = .fin 1 := by
      rw [div_self hne]
      exact roundDouble_of_eq_int 1 1 (by norm_num) (by norm_num)
    have h2 : roundDouble (1 * 100) = .fin 100 := by
      rw [roundDouble_of_eq_int _ 100 (by norm_num) (by norm_num)]
      norm_num
    simp only [JSNum.div]
    rw [if_neg hne, h1]
    simp only [JSNum.mul]
    exact h2
  · intro hT hc
    rw [hdef, hT, hc]
    simp [JSNum.div, JSNum.mul]
  · intro hT hc
    rw [hdef, hT]
    have hne : (s.currentPoints : ℚ) ≠ 0 := by positivity
    have hpos : (0 : ℚ) < (s.currentPoints : ℚ) := by positivity
    simp [JSNum.div, JSNum.mul, hne, hpos]

theorem progress_spec_witness :
    ∃ v : ℚ, (updateStats (draw centre initialState).1).progress = .fin v ∧
      v = roundFinite (roundFinite (((draw centre initialState).1.currentPoints : ℚ)
            / ((draw centre initialState).1.totalPoints : ℚ)) * 100) ∧
      |v - ((draw centre initialState).1.currentPoints : ℚ)
            / ((draw centre initialState).1.totalPoints : ℚ) * 100|
        ≤ ((draw centre initialState).1.currentPoints : ℚ)
            / ((draw centre initialState).1.totalPoints : ℚ) * 100 / 2 ^ 51 :=
  (progress_spec (draw centre initialState).1).1 (by decide) (by decide) (by decide)

/-- Claim C9 as stated fails: with `totalPoints == 0` and
`currentPoints == 0` the progress value is `NaN`, neither 1 nor 100; and
with 70 of 10000 points the two roundings give the double
`6305039478318695 / 2^53`, which is not `70 / 10000 * 100`. -/
theorem progress_spec_fails :
    (setTotalPoints 0 initialState).totalPoints = 0 ∧
    (setTotalPoints 0 initialState).currentPoints = 0 ∧
    (updateStats (setTotalPoints 0 initialState)).progress = .nan ∧
    (updateStats (setTotalPoints 0 initialState)).progress ≠ .fin 1 ∧
    (updateStats (setTotalPoints 0 initialState)).progress ≠ .fin 100 ∧
    Reachable seventy ∧ seventy.currentPoints = 70 ∧ seventy.totalPoints = 10000 ∧
    (updateStats seventy).progress = .fin (6305039478318695 / 2 ^ 53) ∧
    (updateStats seventy).progress ≠ .fin (70 / 10000 * 100) := by
  have h : (updateStats (setTotalPoints 0 initialState)).progress = .nan := by
    simp [updateStats, setTotalPoints, initialState, JSNum.div, JSNum.mul]
  have hreach : Reachable seventy :=
    ReachableWhen.tick centre (ReachableWhen.tick centre (ReachableWhen.tick centre
      (ReachableWhen.tick centre (ReachableWhen.tick centre (ReachableWhen.tick centre
        (ReachableWhen.tick centre ReachableWhen.init))))))
  have hc : seventy.currentPoints = 70 := by decide
  have hT : seventy.totalPoints = 10000 := by decide
  have hq : roundDouble ((70 : ℚ) / 10000) = .fin (8070450532247929 / 2 ^ 60) := by
    rw [roundDouble_eval _ (-8) 8070450532247929 (by norm_num) (by norm_num) (by norm_num)
      (by rw [abs_lt]; norm_num) (by norm_num) (by norm_num)]
    norm_num
  have hm : roundDouble ((8070450532247929 : ℚ) / 2 ^ 60 * 100)
      = .fin (6305039478318695 / 2 ^ 53) := by
    rw [roundDouble_eval _ (-1) 6305039478318695 (by norm_num) (by norm_num) (by norm_num)
      (by rw [abs_lt]; norm_num) (by norm_num) (by norm_num)]
    norm_num
  have hp : (updateStats seventy).progress = .fin (6305039478318695 / 2 ^ 53) := by
    show JSNum.mul (JSNum.div (.fin (seventy.currentPoints : ℚ))
      (.fin (seventy.totalPoints : ℚ))) (.fin 100) = _
    rw [hc, hT]
    push_cast
    simp only [JSNum.div]
    rw [if_neg (by norm_num), hq]
    simp only [JSNum.mul]
    exact hm
  refine ⟨rfl, rfl, h, ?_, ?_, hreach, hc, hT, hp, ?_⟩
  · rw [h]; intro hh; cases hh
  · rw [h]; intro hh; cases hh
  · rw [hp]
    intro hh
    injection hh with hh
    norm_num at hh

theorem draw_of_overshoot (rnd : Nat → ℚ × ℚ) (s : State)
    (hp : s.isPaused = false) (hc : s.isComplete = false)
    (hge : s.totalPoints ≤ s.currentPoints) :
    draw rnd s =
      ({ s with isComplete := true },
        { stats := some (updateStats s),
          completion := some (showCompletionMessage { s with isComplete := true }) }) := by
  have hl : (match speedMultipliers s.simulationSpeed with
      | some batchSize => drawLoop rnd batchSize 0 s
      | none => s) = s := by
    split
    · exact drawLoop_of_ge _ _ _ _ hge
    · rfl
  unfold draw
  simp only [hp, hc, Bool.not_false, Bool.and_self, if_true, hl]
  rw [if_pos hge]

theorem loweredTarget_eq :
    loweredTarget =
      { totalPoints := 1, currentPoints := 2, pointsInside := 2,
        allPoints := [{ x := 250, y := 250, inside := true },
                      { x := 250, y := 250, inside := true }],
        isPaused := false, simulationSpeed := 1, radius := 500, isComplete := false } := by
  simp [loweredTarget, drawTicks, draw, drawLoop, drawPoint, speedMultipliers,
    setSimulationSpeed, setTotalPoints, initialState, centre, isInside_centre]

/-- Claim C10 fails on the code: in the reachable state `loweredTarget` (2
points generated, both inside, target lowered to 1) the next tick completes
the run; `updateStats` shows `4 * 2 / 2 = 4` and the completion message
shows `4 * 2 / 1 = 8`. -/
theorem completion_message_differs :
    Reachable loweredTarget ∧
    loweredTarget.currentPoints = 2 ∧ loweredTarget.pointsInside = 2 ∧
    loweredTarget.totalPoints = 1 ∧
    (draw centre loweredTarget).1.isComplete = true ∧
    (draw centre loweredTarget).2.stats.map Stats.piApproximation = some (.fin 4) ∧
    (draw centre loweredTarget).2.completion.map Completion.piApproximation
      = some (.fin 8) ∧
    (draw centre loweredTarget).2.stats.map Stats.error = some (.fin |MathPI - 4|) ∧
    (draw centre loweredTarget).2.completion.map Completion.error
      = some (.fin |MathPI - 8|) := by
  have hreach : Reachable loweredTarget :=
    ReachableWhen.points 1
      (ReachableWhen.tick centre
        (ReachableWhen.tick centre
          (ReachableWhen.speed 1 ReachableWhen.init (by decide) (by decide)))) trivial
  have hs := loweredTarget_eq
  have hd := draw_of_overshoot centre loweredTarget (by rw [hs]) (by rw [hs])
    (by rw [hs]; decide)
  have hq1 : roundDouble ((2 : ℚ) / 2) = .fin 1 := by
    rw [roundDouble_of_eq_int _ 1 (by norm_num) (by norm_num)]; norm_num
  have hq2 : roundDouble ((4 : ℚ) * 1) = .fin 4 := by
    rw [roundDouble_of_eq_int _ 4 (by norm_num) (by norm_num)]; norm_num
  have hq3 : roundDouble ((2 : ℚ) / 1) = .fin 2 := by
    rw [roundDouble_of_eq_int _ 2 (by norm_num) (by norm_num)]; norm_num
  have hq4 : roundDouble ((4 : ℚ) * 2) = .fin 8 := by
    rw [roundDouble_of_eq_int _ 8 (by norm_num) (by norm_num)]; norm_num
  have he1 : roundDouble (MathPI - 4) = .fin (MathPI - 4) :=
    roundDouble_of_eq _ (-241620187839069) (-48) (by norm_num [MathPI]) (by norm_num)
      (by norm_num) (by norm_num)
  have he2 : roundDouble (MathPI - 8) = .fin (MathPI - 8) :=
    roundDouble_of_eq _ (-1367520094681693) (-48) (by norm_num [MathPI]) (by norm_num)
      (by norm_num) (by norm_num)
  have hpi : (updateStats loweredTarget).piApproximation = .fin 4 := by
    rw [hs]
    show (if 2 > 0 then JSNum.mul (.fin 4) (JSNum.div (.fin ((2 : ℕ) : ℚ))
      (.fin ((2 : ℕ) : ℚ))) else .fin 0) = _
    rw [if_pos (by decide)]
    push_cast
    simp only [JSNum.div]
    rw [if_neg (by norm_num), hq1]
    simp only [JSNum.mul]
    exact hq2
  have hcm : (showCompletionMessage { loweredTarget with isComplete := true }).piApproximation
      = .fin 8 := by
    rw [hs]
    show JSNum.mul (.fin 4) (JSNum.div (.fin ((2 : ℕ) : ℚ)) (.fin ((1 : ℕ) : ℚ))) = _
    push_cast
    simp only [JSNum.div]
    rw [if_neg (by norm_num), hq3]
    simp only [JSNum.mul]
    exact hq4
  have herr : (updateStats loweredTarget).error = .fin |MathPI - 4| := by
    show JSNum.abs (JSNum.sub (.fin MathPI) (updateStats loweredTarget).piApproximation) = _
    rw [hpi]
    simp only [JSNum.sub]
    rw [he1]
    rfl
  have hcerr : (showCompletionMessage { loweredTarget with isComplete := true }).error
      = .fin |MathPI - 8| := by
    show JSNum.abs (JSNum.sub (.fin MathPI)
      (showCompletionMessage { loweredTarget with isComplete := true }).piApproximation) = _
    rw [hcm]
    simp only [JSNum.sub]
    rw [he2]
    rfl
  refine ⟨hreach, by rw [hs], by rw [hs], by rw [hs], ?_, ?_, ?_, ?_, ?_⟩
  · rw [hd]
  · rw [hd]; exact congrArg some hpi
  · rw [hd]; exact congrArg some hcm
  · rw [hd]; exact congrArg some herr
  · rw [hd]; exact congrArg some hcerr

end PiSim
